import Mathlib

/-!
# Verification of btctxstore's `control.py`

A shallow embedding of the data-blob codec, the recoverable-signature
engine and the UTXO allocator of `btctxstore/control.py`, together with
proofs and refutations of the specified properties.

Modelling conventions:
* bytes are `Nat` values (`0..255` in the source; the embedding stores the
  raw values and never relies on an upper bound unless stated);
* Python exceptions become an explicit `Except PyErr` result;
* Python `int` arithmetic is `Int` where sign matters (floor division `//`
  is `Int.fdiv`), and `Nat` for quantities that are byte counts or
  non-negative coin amounts;
* functions of the repository that are not part of `control.py`
  (`common.py`, `modsqrt.py`, `util.py`, `serialize.py`, `deserialize.py`)
  are modelled from the spec, marked `Modelled from the spec:`;
* external libraries (python-ecdsa, pycoin, zlib, hashlib) are external
  collaborators: pure primitives with no bearing on the claims are
  abstracted as fields of an `Ext` record, while the elliptic-curve
  primitives of python-ecdsa that the recovery path exercises are modelled
  concretely, including the errors they raise.
-/

set_option linter.unusedVariables false

namespace BtcTxStore

/-- Outcome of a Python call: either a value or a raised exception.
Repository exceptions (`exceptions.py`) and the runtime/library errors
that can escape the modelled functions. `InvalidSignarureParameter`
keeps the repository's spelling. -/
inductive PyErr where
  | assertionError
  | invalidSignarureParameter
  | badSignatureError
  | badDigestError
  | runtimeError
  | typeError
  | zeroDivisionError
  | zlibError
  | recursionLimit
  | noNulldataOutput
  | noDataBlob
  | noBroadcastMessage
  | maxDataBlobSizeExceeded (maxSize : Nat) (len : Nat)
  | existingNulldataOutput
  | insufficientFunds (required total : Int)
  | signSerializeError
deriving DecidableEq

/-- Decidable equality of call outcomes (used to evaluate the theorems on
concrete inputs). -/
instance instDecEqExcept [DecidableEq ε] [DecidableEq α] : DecidableEq (Except ε α) :=
  fun x y =>
    match x, y with
    | .ok a, .ok b =>
      if h : a = b then .isTrue (by rw [h])
      else .isFalse (fun hc => h (Except.ok.inj hc))
    | .error a, .error b =>
      if h : a = b then .isTrue (by rw [h])
      else .isFalse (fun hc => h (Except.error.inj hc))
    | .ok _, .error _ => .isFalse (fun hc => Except.noConfusion hc)
    | .error _, .ok _ => .isFalse (fun hc => Except.noConfusion hc)

/-- A transaction input: reference to a previous output (`pycoin TxIn`). -/
structure TxIn where
  previous_hash : Nat
  previous_index : Nat
deriving DecidableEq

/-- A transaction output.  Three script shapes occur in the embedded code:
a null-data output carrying raw bytes, a hash160-carrier output whose
20-byte hash field holds payload bytes with a dust-limit value, and a
standard payment output to an address (value in smallest units, a Python
int). -/
inductive TxOut where
  | nulldata (data : List Nat)
  | hash160data (data : List Nat) (value : Nat)
  | payto (address : List Nat) (value : Int)
deriving DecidableEq

/-- A transaction: ordered inputs and outputs (version/locktime carry no
information for the verified properties). -/
structure Tx where
  txs_in : List TxIn
  txs_out : List TxOut
deriving DecidableEq

/-- Whether a script disassembles to `^OP_RETURN` (only the null-data
shape does). -/
def isNulldata : TxOut → Bool
  | .nulldata _ => true
  | _ => false

/-- Coin value of an output.  `deserialize.nulldata_txout` (not under
`src/`) builds null-data outputs with zero value; Modelled from the spec:
"no spendable value constraint beyond a zero or near-zero amount". -/
def coinValue : TxOut → Int
  | .nulldata _ => 0
  | .hash160data _ v => (v : Int)
  | .payto _ v => v

def SIZE_PREFIX_BYTES : Nat := 2

/-- Modelled from the spec: `common.num_to_bytes` — fixed-width big-endian
byte encoding ("2-byte big-endian size prefix"). -/
def num_to_bytes (count : Nat) (n : Nat) : List Nat :=
  (List.range count).map (fun i => n / 256 ^ (count - 1 - i) % 256)

/-- Modelled from the spec: `common.num_from_bytes` — big-endian decoding,
inverse of `num_to_bytes`. -/
def num_from_bytes (count : Nat) (bs : List Nat) : Nat :=
  bs.foldl (fun acc b => acc * 256 + b) 0

/-- Modelled from the spec: `common.chunks` — "split the remainder into
20-byte chunks"; closed form listing consecutive `n`-element slices. -/
def chunksBy (n : Nat) (l : List α) : List (List α) :=
  (List.range ((l.length + n - 1) / n)).map (fun i => (l.drop (n * i)).take n)

/-- Scan of `tx.txs_out` for the first output whose script matches
`^OP_RETURN`, carrying the running index (`_get_nulldata_output`). -/
def nulldataScan : List TxOut → Nat → Option (Nat × TxOut)
  | [], _ => none
  | o :: os, i => if isNulldata o then some (i, o) else nulldataScan os (i + 1)

/-- `_get_nulldata_output`: index and output of the first null-data
output, if any. -/
def _get_nulldata_output (tx : Tx) : Option (Nat × TxOut) :=
  nulldataScan tx.txs_out 0

/-- Raw bytes carried by a null-data output (`h2b` of the disassembly
after the `OP_RETURN ` keyword); the scan only ever applies this to the
`nulldata` constructor. -/
def txoutNulldataBytes : TxOut → List Nat
  | .nulldata d => d
  | _ => []

/-- `get_nulldata`: first null-data output's index and bytes, or
`NoNulldataOutput`. -/
def get_nulldata (tx : Tx) : Except PyErr (Nat × List Nat) :=
  match _get_nulldata_output tx with
  | none => .error .noNulldataOutput
  | some (i, o) => .ok (i, txoutNulldataBytes o)

/-- The 20-byte slice `disassemble(script)[18:58]` of an output.  For a
hash160-carrier it is exactly the stored 20 payload bytes.  For a
null-data script the same character slice falls inside the pushed hex
(bytes 4..23 of the data); for a payment output it would be the
address's hash160 — no verified claim decodes across payment outputs, so
that branch returns `[]`. -/
def extract160 : TxOut → List Nat
  | .hash160data d _ => d
  | .nulldata d => (d.drop 4).take 20
  | .payto _ _ => []

/-- `get_hash160_data tx i`: the 20 raw bytes carried by output `i`.
Out-of-range indices never occur (the caller checks the output count
first); `getD` with a dummy default stands in for Python list indexing. -/
def get_hash160_data (tx : Tx) (output_index : Nat) : List Nat :=
  extract160 (tx.txs_out.getD output_index (TxOut.nulldata []))

/-- `get_data_blob`: reassemble the payload from the null-data output and
the hash160-carrier outputs that follow it.
`int(math.ceil(required_bytes / 20.0))` is exact ceiling division here:
`required_bytes ≤ 65535`, and an IEEE double cannot displace `x / 20`
across an integer for such `x`. -/
def get_data_blob (tx : Tx) : Except PyErr (List Nat) :=
  match _get_nulldata_output tx with
  | none => .error .noDataBlob
  | some (nulldata_index, o) =>
    let nulldata := txoutNulldataBytes o
    if nulldata.length < SIZE_PREFIX_BYTES then .error .noDataBlob
    else
      let size := num_from_bytes SIZE_PREFIX_BYTES (nulldata.take SIZE_PREFIX_BYTES)
      let data := nulldata.drop SIZE_PREFIX_BYTES
      if size < data.length then .error .noDataBlob
      else if size = data.length then .ok data
      else
        let required_bytes := size - data.length
        let required_hash160_outputs := (required_bytes + 19) / 20
        if required_hash160_outputs + nulldata_index + 1 > tx.txs_out.length then
          .error .noDataBlob
        else
          .ok (((List.range required_hash160_outputs).foldl
            (fun acc index => acc ++ get_hash160_data tx (index + nulldata_index + 1))
            data).take size)

/-- Modelled from the spec: `deserialize.nulldata_txout ∘ serialize.data`
— builds the null-data output carrying exactly the given bytes (the
hex serialization round-trips). -/
def nulldata_txout (data : List Nat) : TxOut := .nulldata data

/-- Modelled from the spec: `deserialize.hash160data_txout` — a
hash160-carrier output holding the 20 bytes with the dust-limit value. -/
def hash160data_txout (data : List Nat) (dust_limit : Nat) : TxOut :=
  .hash160data data dust_limit

/-- `add_nulldata_output`: refuse if a null-data output already exists,
else append. -/
def add_nulldata_output (tx : Tx) (nulldata_txout : TxOut) : Except PyErr Tx :=
  match _get_nulldata_output tx with
  | some _ => .error .existingNulldataOutput
  | none => .ok { tx with txs_out := tx.txs_out ++ [nulldata_txout] }

/-- `add_hash160data_output`: unconditional append. -/
def add_hash160data_output (tx : Tx) (hash160data_txout : TxOut) : Tx :=
  { tx with txs_out := tx.txs_out ++ [hash160data_txout] }

/-- `add_data_blob`.  `max_nulldata` is `common.MAX_NULLDATA` (not under
`src/`); Modelled from the spec: "a fixed maximum, analogous to a standard
null-data script capacity" — kept as an explicit parameter, 40 in the
repository.  Note the source's size guard is `len(data) > 2 ** 16`,
i.e. strictly more than 65536. -/
def add_data_blob (max_nulldata : Nat) (tx : Tx) (data : List Nat)
    (dust_limit : Nat) : Except PyErr Tx :=
  let max_data_size := 2 ^ (SIZE_PREFIX_BYTES * 8)
  if data.length > max_data_size then
    .error (.maxDataBlobSizeExceeded max_data_size data.length)
  else
    let framed := num_to_bytes SIZE_PREFIX_BYTES data.length ++ data
    if framed.length ≤ max_nulldata then
      add_nulldata_output tx (nulldata_txout framed)
    else
      match add_nulldata_output tx (nulldata_txout (framed.take max_nulldata)) with
      | .error e => .error e
      | .ok tx1 =>
        .ok ((chunksBy 20 (framed.drop max_nulldata)).foldl
          (fun t c =>
            add_hash160data_output t
              (hash160data_txout (c ++ List.replicate (20 - c.length) 0) dust_limit))
          tx1)

/-! ## UTXO allocator -/

/-- A spendable previous output (external `ChainService` contract):
transaction id, output index and coin value. -/
structure Spendable where
  tx_hash : Nat
  tx_out_index : Nat
  coin_value : Nat
deriving DecidableEq

/-- A private-key handle (external `KeyProvider` contract): exposes
`secret_exponent()` and `address()`. -/
structure Key where
  secretExponent : Nat
  address : List Nat
deriving DecidableEq

/-- Stable insertion step: place `x` before the first `y` with `le x y`. -/
def insertB (le : α → α → Bool) (x : α) : List α → List α
  | [] => [x]
  | y :: ys => if le x y then x :: y :: ys else y :: insertB le x ys

/-- Stable sort.  Python's `sorted` is stable, and a stable sort's output
list is uniquely determined by the ordering and the input order, so this
insertion sort computes the same list as `sorted` with the same key. -/
def sortB (le : α → α → Bool) : List α → List α
  | [] => []
  | x :: xs => insertB le x (sortB le xs)

def sumCoins (l : List Spendable) : Nat := (l.map (·.coin_value)).sum

/-- `retrieve_utxos`: the service's spendables sorted by coin value,
largest first (`sorted(..., key=coin_value, reverse=True)`; the stable
reverse sort keeps ties in input order, matched by `sortB` with the
reversed comparison).  The external service call is replaced by the list
it returns. -/
def retrieve_utxos (spendables : List Spendable) : List Spendable :=
  sortB (fun a b => decide (b.coin_value ≤ a.coin_value)) spendables

/-- Greedy accumulation loop of `find_txins`. -/
def findTxinsGo (amount : Int) : List Spendable → List TxIn → Nat → List TxIn × Nat
  | [], txins, total => (txins, total)
  | s :: rest, txins, total =>
    let total' := total + s.coin_value
    let txins' := txins ++ [⟨s.tx_hash, s.tx_out_index⟩]
    if amount ≤ (total' : Int) then (txins', total')
    else findTxinsGo amount rest txins' total'

/-- `find_txins`: accumulate inputs over the descending-sorted spendables
until the running total reaches `amount` or the set is exhausted. -/
def find_txins (spendables : List Spendable) (amount : Int) : List TxIn × Nat :=
  findTxinsGo amount (retrieve_utxos spendables) [] 0

/-- `add_inputs`: fund the transaction's outputs plus `fee`, raising
`InsufficientFunds(required, total)` when the accumulated total falls
short, and appending a change output otherwise.  The key list only
supplies query addresses and the default change address externally, so
the change address is taken as a parameter. -/
def add_inputs (spendables : List Spendable) (tx : Tx) (change_address : List Nat)
    (fee : Nat) : Except PyErr Tx :=
  let required : Int := (tx.txs_out.map coinValue).sum + (fee : Int)
  let r := find_txins spendables required
  if (r.2 : Int) < required then .error (.insufficientFunds required r.2)
  else .ok { txs_in := tx.txs_in ++ r.1,
             txs_out := tx.txs_out ++ [.payto change_address ((r.2 : Int) - required)] }

/-- The `while` loop of `_take_txins`: Python pops from the end of the
ascending list; here the list is reversed once so consumption is from the
head, and the remainder is reversed back in `_take_txins`. -/
def takeTxinsGo (maxinput : Nat) : List Spendable → List Spendable →
    List Spendable × Nat × List Spendable
  | [], inputs => (inputs, sumCoins inputs, [])
  | s :: rest, inputs =>
    if sumCoins inputs > maxinput then (inputs, sumCoins inputs, s :: rest)
    else takeTxinsGo maxinput rest (inputs ++ [s])

/-- `_take_txins`: greedily pop largest-first from the ascending-sorted
working list until the accumulated total exceeds
`limit * max_outputs + fee` or the list is empty; returns the selected
inputs as `TxIn`s, their total, and the remaining working list. -/
def _take_txins (spendables : List Spendable) (limit max_outputs fee : Nat) :
    List TxIn × Nat × List Spendable :=
  let maxinput := limit * max_outputs + fee
  let r := takeTxinsGo maxinput spendables.reverse []
  (r.1.map (fun s => ⟨s.tx_hash, s.tx_out_index⟩), r.2.1, r.2.2.reverse)

/-- `_enough_to_split`: total of the working set reaches
`fee + limit * 2`. -/
def _enough_to_split (spendables : List Spendable) (fee limit : Nat) : Bool :=
  sumCoins spendables ≥ fee + limit * 2

/-- `_filter_dust`: keep spendables above both `fee` and `limit`, sorted
ascending by coin value (stable). -/
def _filter_dust (spendables : List Spendable) (fee limit : Nat) : List Spendable :=
  sortB (fun a b => decide (a.coin_value ≤ b.coin_value))
    (((spendables.filter (fun s => s.coin_value > fee)).filter
      (fun s => s.coin_value > limit)))

/-- The local `txouts_total` of `_outputs`: `inputs_total - fee` over
Python ints. -/
def txouts_total (inputs_total fee : Nat) : Int := (inputs_total : Int) - (fee : Int)

/-- The local `txouts_cnt` of `_outputs` (meaningful when the division is
defined; `Int.fdiv _ 0 = 0` stands in for the `limit = 0` case, which
`_outputs` itself turns into a `ZeroDivisionError`). -/
def txouts_cnt (inputs_total fee max_outputs limit : Nat) : Int :=
  if txouts_total inputs_total fee > (max_outputs : Int) * (limit : Int)
  then (max_outputs : Int)
  else (txouts_total inputs_total fee).fdiv (limit : Int)

/-- The local `txout_amount` of `_outputs`. -/
def txout_amount (inputs_total fee max_outputs limit : Nat) : Int :=
  (txouts_total inputs_total fee).fdiv (txouts_cnt inputs_total fee max_outputs limit)

/-- The local `rounded_amount` of `_outputs`. -/
def rounded_amount (inputs_total fee max_outputs limit : Nat) : Int :=
  txouts_total inputs_total fee
    - txout_amount inputs_total fee max_outputs limit
      * txouts_cnt inputs_total fee max_outputs limit

/-- `_outputs`: partition `inputs_total - fee` into equally valued payment
outputs back to `key`'s address.  Python's `//` is floor division
(`Int.fdiv`); `txouts_total // limit` and `txouts_total // txouts_cnt`
with a zero divisor raise `ZeroDivisionError`, and the final `assert`
raises `AssertionError` when it fails. -/
def _outputs (testnet : Bool) (inputs_total fee max_outputs limit : Nat) (key : Key) :
    Except PyErr (List TxOut) :=
  if txouts_total inputs_total fee > (max_outputs : Int) * (limit : Int)
      ∨ (limit : Int) ≠ 0 then
    if txouts_cnt inputs_total fee max_outputs limit = 0 then .error .zeroDivisionError
    else
      let txouts := (List.range (txouts_cnt inputs_total fee max_outputs limit).toNat).map
        (fun i => TxOut.payto key.address
          (if i = 0
           then txout_amount inputs_total fee max_outputs limit
              + rounded_amount inputs_total fee max_outputs limit
           else txout_amount inputs_total fee max_outputs limit))
      if txouts_total inputs_total fee = (txouts.map coinValue).sum then .ok txouts
      else .error .assertionError
  else .error .zeroDivisionError

/-- `create_tx` without the external signing and publishing steps
(`TxSigner` / `ChainService` collaborators): the transaction value built
from the given inputs and outputs. -/
def create_tx (txins : List TxIn) (txouts : List TxOut) : Tx :=
  { txs_in := txins, txs_out := txouts }

/-- The recursion of `split_utxos`, with explicit fuel standing for
Python's unbounded recursion (`recursionLimit` marks fuel exhaustion; the
termination theorem shows any fuel above the spendable count is enough).
Python returns `[tx.hash()] + recursion`; the external double-SHA hash of
the serialized transaction is dropped and the transactions themselves are
returned. -/
def split_utxos_go (testnet : Bool) (key : Key) (limit fee max_outputs : Nat) :
    Nat → List Spendable → Except PyErr (List Tx)
  | 0, _ => .error .recursionLimit
  | fuel + 1, spendables =>
    let sp := _filter_dust spendables fee limit
    if _enough_to_split sp fee limit then
      let r := _take_txins sp limit max_outputs fee
      match _outputs testnet r.2.1 fee max_outputs limit key with
      | .error e => .error e
      | .ok txouts =>
        match split_utxos_go testnet key limit fee max_outputs fuel r.2.2 with
        | .error e => .error e
        | .ok txs => .ok (create_tx r.1 txouts :: txs)
    else .ok []

/-- `split_utxos`: one spendable is consumed per pass, so
`spendables.length + 1` fuel always suffices (proved below). -/
def split_utxos (testnet : Bool) (key : Key) (spendables : List Spendable)
    (limit fee max_outputs : Nat) : Except PyErr (List Tx) :=
  split_utxos_go testnet key limit fee max_outputs (spendables.length + 1) spendables

/-! ## Recoverable-signature engine

The curve arithmetic models the python-ecdsa primitives that
`control.py` drives (`ellipticcurve.Point`, `numbertheory.inverse_mod`,
`Public_key`, `VerifyingKey.verify_digest`), including the exceptions
they raise, since `verify_signature` catches exactly `AssertionError`
and `InvalidSignarureParameter`. -/

/-- secp256k1 field prime (library constant `curve_secp256k1.p()`). -/
def secp_p : Nat :=
  0xFFFFFFFFFFFFFFFFFFFFFFFFFFFFFFFFFFFFFFFFFFFFFFFFFFFFFFFEFFFFFC2F

/-- secp256k1 curve coefficient `a`. -/
def secp_a : Nat := 0

/-- secp256k1 curve coefficient `b`. -/
def secp_b : Nat := 7

/-- secp256k1 group order (library constant `generator_secp256k1.order()`). -/
def secp_n : Nat :=
  0xFFFFFFFFFFFFFFFFFFFFFFFFFFFFFFFEBAAEDCE6AF48A03BBFD25E8CD0364141

def secp_Gx : Nat :=
  0x79BE667EF9DCBBAC55A06295CE870B07029BFCDB2DCE28D959F2815B16F81798

def secp_Gy : Nat :=
  0x483ADA7726A3C4655DA4FBFC0E1108A8FD17B448A68554199C47D08FFB10D4B8

/-- An affine curve point or the point at infinity, coordinates stored
raw (the library compares coordinates without reducing modulo `p`). -/
inductive ECPoint where
  | infinity
  | pt (x y : Nat)
deriving DecidableEq

/-- secp256k1 generator. -/
def secp_G : ECPoint := .pt secp_Gx secp_Gy

/-- Fast modular exponentiation with structural fuel; 257 units of fuel
cover every exponent below `2 ^ 257`, which bounds all exponents used
(`p - 2`, `(p ± 1) / k`, 256-bit scalars). -/
def powModGo (m : Nat) : Nat → Nat → Nat → Nat
  | 0, _, _ => 1 % m
  | f + 1, b, e =>
    if e = 0 then 1 % m
    else
      let h := powModGo m f (b * b % m) (e / 2)
      if e % 2 = 1 then h * b % m else h

/-- Python's three-argument `pow(b, e, m)`. -/
def powMod (b e m : Nat) : Nat := powModGo m 257 (b % m) e

/-- `ecdsa.numbertheory.inverse_mod a m`: reduces `a` into `[0, m)`, runs
the extended Euclid algorithm and asserts the gcd is 1.  Every modulus
used here (`p` and `n`) is prime, so the assert fires exactly when
`a ≡ 0 (mod m)`, and for the remaining arguments the Euclid cofactor,
normalised into `[1, m)`, is the unique inverse — the value computed here
as the Fermat inverse `a ^ (m - 2) mod m`. -/
def inverse_mod (a : Int) (m : Nat) : Except PyErr Nat :=
  let a' := (a % (m : Int)).toNat
  if a' = 0 then .error .assertionError
  else .ok (powMod a' (m - 2) m)

/-- Modelled from the spec: `modsqrt.legendre_symbol` — Euler's
criterion `pow(a, (p - 1) // 2, p)` (the Tonelli–Shanks helper in the
repository's `modsqrt.py`, not under `src/`). -/
def legendre_symbol (a p : Nat) : Nat := powMod a ((p - 1) / 2) p

/-- Modelled from the spec: `modsqrt.modular_sqrt` — "a modular-square-root
computation on the curve's field".  The repository's Tonelli–Shanks
returns 0 when `legendre_symbol(a, p) != 1`, and for the curve prime
`p ≡ 3 (mod 4)` takes the `pow(a, (p + 1) // 4, p)` branch, which is the
specialisation modelled here. -/
def modular_sqrt (a p : Nat) : Nat :=
  if legendre_symbol a p ≠ 1 then 0 else powMod a ((p + 1) / 4) p

/-- `CurveFp.contains_point`: `(y² - (x³ + a·x + b)) % p == 0`. -/
def contains_point (p a b x y : Nat) : Bool :=
  (y * y) % p = (x * x * x + a * x + b) % p

/-- `ellipticcurve.Point(curve, x, y, order)`: asserts the point lies on
the curve (`AssertionError` otherwise).  The constructor's second assert,
`self * order == INFINITY`, reduces the scalar modulo the stored order
first, so it compares `INFINITY == INFINITY` and never fires. -/
def mkPoint (p a b x y : Nat) : Except PyErr ECPoint :=
  if contains_point p a b x y then .ok (.pt x y) else .error .assertionError

/-- `Point.double`: tangent-line doubling; `inverse_mod(2·y, p)` raises
when `y ≡ 0`. -/
def pointDouble (p a : Nat) : ECPoint → Except PyErr ECPoint
  | .infinity => .ok .infinity
  | .pt x y => do
    let inv ← inverse_mod (2 * (y : Int)) p
    let l : Int := ((3 * (x : Int) * x + a) * inv) % p
    let x3 : Int := (l * l - 2 * x) % p
    let y3 : Int := (l * ((x : Int) - x3) - y) % p
    .ok (.pt x3.toNat y3.toNat)

/-- `Point.__add__`: infinity cases, the equal-`x` dispatch (inverse pair
or doubling), then the chord formula; `inverse_mod(x₂ - x₁, p)` raises
when the difference is divisible by `p`. -/
def pointAdd (p a : Nat) : ECPoint → ECPoint → Except PyErr ECPoint
  | P, .infinity => .ok P
  | .infinity, Q => .ok Q
  | .pt x1 y1, .pt x2 y2 =>
    if x1 = x2 then
      if (y1 + y2) % p = 0 then .ok .infinity
      else pointDouble p a (.pt x1 y1)
    else do
      let inv ← inverse_mod ((x2 : Int) - x1) p
      let l : Int := (((y2 : Int) - y1) * inv) % p
      let x3 : Int := (l * l - x1 - x2) % p
      let y3 : Int := (l * ((x1 : Int) - x3) - y1) % p
      .ok (.pt x3.toNat y3.toNat)

/-- Binary double-and-add with structural fuel (257 units cover every
scalar below `2 ^ 257`; all scalars used are below `2 ^ 256`).  The
library's X9.62 `3·e` loop computes the same scalar multiple with the
same point primitives. -/
def pointMulGo (p a : Nat) : Nat → ECPoint → Nat → Except PyErr ECPoint
  | 0, _, _ => .ok .infinity
  | f + 1, P, e =>
    if e = 0 then .ok .infinity
    else do
      let h ← pointMulGo p a f P (e / 2)
      let d ← pointAdd p a h h
      if e % 2 = 1 then pointAdd p a d P else pure d

/-- `Point.__mul__`: when the point carries an order the scalar is first
reduced modulo it; zero scalars and the point at infinity short-circuit
to infinity. -/
def pointMulOrd (p a : Nat) (order : Option Nat) (P : ECPoint) (e : Nat) :
    Except PyErr ECPoint :=
  let e' := match order with
    | some n => e % n
    | none => e
  if e' = 0 then .ok .infinity
  else if P = .infinity then .ok .infinity
  else pointMulGo p a 257 P e'

/-- Modelled from the spec: `util.bytestoint` — "the digest interpreted
as a big-endian integer" (also `ecdsa.util.string_to_number`). -/
def bytestoint (bs : List Nat) : Nat := bs.foldl (fun acc b => acc * 256 + b) 0

/-- Little-endian fixed-width byte encoding (for the varint body). -/
def bytesLE (count n : Nat) : List Nat :=
  (List.range count).map (fun i => n / 256 ^ i % 256)

/-- `_encode_varint` via pycoin's `stream_bc_int`: the standard Bitcoin
variable-length integer. -/
def _encode_varint (v : Nat) : List Nat :=
  if v < 253 then [v]
  else if v < 2 ^ 16 then 253 :: bytesLE 2 v
  else if v < 2 ^ 32 then 254 :: bytesLE 4 v
  else 255 :: bytesLE 8 v

/-- The fixed text `b"\x18Bitcoin Signed Message:\n"`. -/
def msgMagic : List Nat :=
  0x18 :: ("Bitcoin Signed Message:" ++ "\n").toList.map Char.toNat

/-- External collaborators used by the signature engine and the
broadcast-message composition: hashing (pycoin `double_sha256`), the
address codec (pycoin), deterministic ECDSA signing over the curve
(python-ecdsa `sign_digest_deterministic`, returning the raw `(r, s)`
pair), and zlib compression (`decompress` raising `zlib.error` on
malformed input). -/
structure Ext where
  dsha256 : List Nat → List Nat
  pubToH160 : Nat → Nat → Bool → List Nat
  h160ToAddr : List Nat → List Nat → List Nat
  addrToH160 : List Nat → List Nat → List Nat
  ecdsaSign : Nat → List Nat → Nat × Nat
  compress : List Nat → List Nat
  decompress : List Nat → Except PyErr (List Nat)

/-- Address version byte: `b'\x6f'` for testnet, `b'\0'` for mainnet. -/
def addressVersion (testnet : Bool) : List Nat := if testnet then [0x6f] else [0]

/-- `_address_to_hash160` (external address codec with the network
version byte). -/
def _address_to_hash160 (ext : Ext) (testnet : Bool) (address : List Nat) : List Nat :=
  ext.addrToH160 address (addressVersion testnet)

/-- `_hash160_to_address` (external address codec with the network
version byte). -/
def _hash160_to_address (ext : Ext) (testnet : Bool) (hash160 : List Nat) : List Nat :=
  ext.h160ToAddr hash160 (addressVersion testnet)

/-- `_public_pair_to_address`. -/
def _public_pair_to_address (ext : Ext) (testnet : Bool) (x y : Nat)
    (compressed : Bool) : List Nat :=
  _hash160_to_address ext testnet (ext.pubToH160 x y compressed)

/-- `_bitcoin_message_hash`: double SHA-256 of magic ‖ varint length ‖
data. -/
def _bitcoin_message_hash (ext : Ext) (data : List Nat) : List Nat :=
  ext.dsha256 (msgMagic ++ _encode_varint data.length ++ data)

/-- `ecdsa.util.sigencode_string`: two 32-byte big-endian strings; the
library's `r` and `s` are below the order, so the fixed-width encoding
is exact. -/
def sigencode_string (r s : Nat) : List Nat := num_to_bytes 32 r ++ num_to_bytes 32 s

/-- `ecdsa.util.sigdecode_string` (2015-era library): asserts the string
has twice the order length (64 bytes), then splits big-endian `r`, `s`. -/
def sigdecode_string (signature : List Nat) : Except PyErr (Nat × Nat) :=
  if signature.length ≠ 64 then .error .assertionError
  else .ok (bytestoint (signature.take 32), bytestoint (signature.drop 32))

/-- `_add_recovery_params`: header byte `27 + i + (4 if compressed)`
followed by the raw signature. -/
def _add_recovery_params (i : Nat) (compressed : Bool) (sigdata : List Nat) :
    List Nat :=
  (27 + i + if compressed then 4 else 0) :: sigdata

/-- `_parse_signature`: split the 64 raw bytes (length asserted by
`sigdecode_string`, so reading byte 0 afterwards is safe), then decode
the header byte; `params != (params & 7)` holds exactly when
`params ∉ [0, 8)` over Python's signed arithmetic, raising
`InvalidSignarureParameter`. -/
def _parse_signature (sig : List Nat) :
    Except PyErr (List Nat × Nat × Nat × Nat × Bool) :=
  let rsdata := sig.drop 1
  match sigdecode_string rsdata with
  | .error e => .error e
  | .ok (r, s) =>
    let params : Int := (sig.headD 0 : Int) - 27
    if 0 ≤ params ∧ params < 8 then
      .ok (rsdata, r, s, params.toNat &&& 3, decide (params.toNat &&& 4 ≠ 0))
    else .error .invalidSignarureParameter

/-- `_recover_public_key` (SEC 1 §4.1.6, as written in `control.py`):
`x = r + (i // 2)·n`, the y-branch by parity against `i` (Python's `%`
on the possibly negative `beta - i`), point construction with its
on-curve assert, then `Q = r⁻¹(s·R - e·G)`. -/
def _recover_public_key (r s i e : Nat) : Except PyErr ECPoint := do
  let order := secp_n
  let x := r + (i / 2) * order
  let alpha := (x * x * x + secp_a * x + secp_b) % secp_p
  let beta := modular_sqrt alpha secp_p
  let y := if ((beta : Int) - i) % 2 = 0 then beta else secp_p - beta
  let R ← mkPoint secp_p secp_a secp_b x y
  let rInv ← inverse_mod (r : Int) order
  let eNeg := ((-(e : Int)) % (order : Int)).toNat
  let sR ← pointMulOrd secp_p secp_a (some order) R s
  let eG ← pointMulOrd secp_p secp_a (some order) secp_G eNeg
  let sum ← pointAdd secp_p secp_a sR eG
  pointMulOrd secp_p secp_a none sum rInv

/-- `VerifyingKey.from_public_point` builds an `ecdsa.Public_key`, whose
constructor checks `n·point == INFINITY` and that both coordinates are
within range, raising `RuntimeError` otherwise; the point at infinity has
no coordinates and fails the same checks.  None of these are
`AssertionError`, so they would escape `verify_signature`. -/
def publicKeyChecks (Q : ECPoint) : Except PyErr (Nat × Nat) := do
  match Q with
  | .infinity => .error .runtimeError
  | .pt qx qy =>
    let nQ ← pointMulOrd secp_p secp_a none Q secp_n
    if nQ ≠ ECPoint.infinity then .error .runtimeError
    else if qx ≥ secp_n ∨ qy ≥ secp_n then .error .runtimeError
    else .ok (qx, qy)

/-- `ecdsa.Public_key.verifies`: range-check `r` and `s`, then the
standard ECDSA check `(u₁·G + u₂·Q).x ≡ r (mod n)`.  When the combined
point is infinity, Python evaluates `None % n` and raises. -/
def pubkey_verifies (qx qy hashNum r s : Nat) : Except PyErr Bool :=
  if r < 1 ∨ r > secp_n - 1 then .ok false
  else if s < 1 ∨ s > secp_n - 1 then .ok false
  else do
    let c ← inverse_mod (s : Int) secp_n
    let u1 := hashNum * c % secp_n
    let u2 := r * c % secp_n
    let p1 ← pointMulOrd secp_p secp_a (some secp_n) secp_G u1
    let p2 ← pointMulOrd secp_p secp_a none (.pt qx qy) u2
    let xy ← pointAdd secp_p secp_a p1 p2
    match xy with
    | .infinity => .error .typeError
    | .pt vx _ => .ok (decide (vx % secp_n = r))

/-- `VerifyingKey.verify_digest`: digest-length guard, decode `(r, s)`,
then `verifies`; returns `True` on success and raises
`BadSignatureError` (not an `AssertionError`) on failure — the return
value is discarded by `verify_signature`, so only the raise matters. -/
def verify_digest (qx qy : Nat) (rsdata digest : List Nat) : Except PyErr Unit := do
  if digest.length > 32 then .error .badDigestError
  else do
    let rs ← sigdecode_string rsdata
    let ok ← pubkey_verifies qx qy (bytestoint digest) rs.1 rs.2
    if ok then .ok () else .error .badSignatureError

/-- The body of `verify_signature` before its `except` clauses. -/
def verifySignatureRaw (ext : Ext) (testnet : Bool) (address sig data : List Nat) :
    Except PyErr Bool := do
  let parsed ← _parse_signature sig
  let rsdata := parsed.1
  let r := parsed.2.1
  let s := parsed.2.2.1
  let i := parsed.2.2.2.1
  let compressed := parsed.2.2.2.2
  let digest := _bitcoin_message_hash ext data
  let e := bytestoint digest
  let Q ← _recover_public_key r s i e
  let qc ← publicKeyChecks Q
  let _ ← verify_digest qc.1 qc.2 rsdata digest
  let recoveredaddress := _public_pair_to_address ext testnet qc.1 qc.2 compressed
  .ok (decide (address = recoveredaddress))

/-- `verify_signature`: catches exactly `AssertionError` (recovery
failure) and `InvalidSignarureParameter`, converting them to `False`;
any other raised error propagates. -/
def verify_signature (ext : Ext) (testnet : Bool) (address sig data : List Nat) :
    Except PyErr Bool :=
  match verifySignatureRaw ext testnet address sig data with
  | .error .assertionError => .ok false
  | .error .invalidSignarureParameter => .ok false
  | r => r

/-- The candidate loop of `sign_data`: return the first candidate whose
self-verification succeeds, propagate a raised error, and raise the
generic serialization failure when all eight fail. -/
def tryCandidates (ext : Ext) (testnet : Bool) (address data : List Nat) :
    List (List Nat) → Except PyErr (List Nat)
  | [] => .error .signSerializeError
  | sig :: rest =>
    match verify_signature ext testnet address sig data with
    | .error e => .error e
    | .ok true => .ok sig
    | .ok false => tryCandidates ext testnet address data rest

/-- `sign_data`: deterministic ECDSA over the message digest (the signing
primitive is the external library call), then the `for i in range(4)` /
`for compressed in [True, False]` search. -/
def sign_data (ext : Ext) (testnet : Bool) (data : List Nat) (key : Key) :
    Except PyErr (List Nat) :=
  let address := key.address
  let digest := _bitcoin_message_hash ext data
  let rs := ext.ecdsaSign key.secretExponent digest
  let sigdata := sigencode_string rs.1 rs.2
  tryCandidates ext testnet address data
    (((List.range 4).map (fun i =>
      [_add_recovery_params i true sigdata, _add_recovery_params i false sigdata])).flatten)

/-- The candidate list `sign_data` searches, spelled out as a named value
(definitionally the list built inside `sign_data`). -/
def signCandidates (ext : Ext) (data : List Nat) (key : Key) : List (List Nat) :=
  let digest := _bitcoin_message_hash ext data
  let rs := ext.ecdsaSign key.secretExponent digest
  let sigdata := sigencode_string rs.1 rs.2
  ((List.range 4).map (fun i =>
    [_add_recovery_params i true sigdata, _add_recovery_params i false sigdata])).flatten

/-! ## Broadcast messages -/

/-- Decoded broadcast message (`message` kept as its UTF-8 bytes). -/
structure BroadcastMessage where
  address : List Nat
  message : List Nat
  signature : List Nat
deriving DecidableEq

/-- `add_broadcast_message`: sign the message bytes, frame
signature ‖ 13-byte pad ‖ sender hash160 ‖ compressed message, and hand
the frame to `add_data_blob` (`message.encode('utf-8')` is taken as the
byte list `message`). -/
def add_broadcast_message (ext : Ext) (testnet : Bool) (max_nulldata : Nat)
    (tx : Tx) (message : List Nat) (sender_key : Key) (dust_limit : Nat) :
    Except PyErr Tx := do
  let signature ← sign_data ext testnet message sender_key
  let hash160 := _address_to_hash160 ext testnet sender_key.address
  let msg_data := ext.compress message
  let data := signature ++ List.replicate 13 0 ++ hash160 ++ msg_data
  add_data_blob max_nulldata tx data dust_limit

/-- `get_broadcast_message`: decode the blob (`NoDataBlob` mapped to
`NoBroadcastMessage`), check the 98-byte minimum frame, split the frame,
decompress the tail (note: *not* inside any try/except — a `zlib.error`
propagates), then verify. -/
def get_broadcast_message (ext : Ext) (testnet : Bool) (tx : Tx) :
    Except PyErr BroadcastMessage :=
  match get_data_blob tx with
  | .error .noDataBlob => .error .noBroadcastMessage
  | .error e => .error e
  | .ok data =>
    let min_data := 65 + 13 + 20 + 0
    if data.length < min_data then .error .noBroadcastMessage
    else
      let signature := data.take 65
      let rest := (data.drop 65).drop 13
      let address := _hash160_to_address ext testnet (rest.take 20)
      match ext.decompress (rest.drop 20) with
      | .error e => .error e
      | .ok msg_data =>
        match verify_signature ext testnet address signature msg_data with
        | .error e => .error e
        | .ok false => .error .noBroadcastMessage
        | .ok true => .ok ⟨address, msg_data, signature⟩

/-! ## Concrete inputs used to evaluate the theorems -/

/-- A 50-byte payload: with the repository's 40-byte null-data capacity it
needs the null-data output plus one padded hash160-carrier output. -/
def payload50 : List Nat := List.range 50

/-- The transaction produced by encoding `payload50` into an empty
transaction. -/
def encodedTx50 : Tx :=
  match add_data_blob 40 ⟨[], []⟩ payload50 600 with
  | .ok t => t
  | .error _ => ⟨[], []⟩

/-- External collaborators whose zlib decompression always fails, as on
any non-zlib tail (the other collaborators are immaterial on the paths
exercised). -/
def extZ : Ext where
  dsha256 := fun l => l
  pubToH160 := fun x y c => [x % 256, y % 256, if c then 1 else 0]
  h160ToAddr := fun h v => v ++ h
  addrToH160 := fun a _ => a.drop 1
  ecdsaSign := fun _ _ => (1, 1)
  compress := fun l => l
  decompress := fun _ => .error .zlibError

/-- A 100-byte null-data frame: 2-byte size prefix declaring 98 bytes,
then 98 zero bytes — the decoded blob passes the 98-byte minimum frame
check of `get_broadcast_message` with an empty compressed tail. -/
def txZ : Tx := ⟨[], [.nulldata ([0, 98] ++ List.replicate 98 0)]⟩

/-- `(secp_n + 1) / 2 = 2⁻¹ mod n`: the `r` value the concrete signing
collaborator returns. -/
def rW : Nat :=
  57896044618658097711785492504343953926418782139537452191302581570759080747169

/-- `secp_n - 2`: the digest value, chosen so `-e mod n = 2`. -/
def eW : Nat :=
  115792089237316195423570985008687907852837564279074904382605163141518161494335

/-- The 32 big-endian bytes of `eW`, used as the fixed digest. -/
def digestW : List Nat :=
  [255, 255, 255, 255, 255, 255, 255, 255, 255, 255, 255, 255, 255, 255, 255,
   254, 186, 174, 220, 230, 175, 72, 160, 59, 191, 210, 94, 140, 208, 54, 65, 63]

/-- The 32 big-endian bytes of `rW`. -/
def rBytesW : List Nat :=
  [127, 255, 255, 255, 255, 255, 255, 255, 255, 255, 255, 255, 255, 255, 255,
   255, 93, 87, 110, 115, 87, 164, 80, 29, 223, 233, 47, 70, 104, 27, 32, 161]

/-- Concrete external collaborators for evaluating the signature engine:
hashing returns the fixed digest `digestW`, the address codec prepends
the version byte to a 3-byte hash160 keyed on the public pair, and the
deterministic signer returns `(rW, 2)`. -/
def extW : Ext where
  dsha256 := fun _ => digestW
  pubToH160 := fun x y c => [x % 256, y % 256, if c then 1 else 0]
  h160ToAddr := fun h v => v ++ h
  addrToH160 := fun a _ => a.drop 1
  ecdsaSign := fun _ _ => (rW, 2)
  compress := fun l => l
  decompress := fun l => .ok l

/-- The signing key used with `extW`: its address is the one `extW`'s
codec derives for the public pair recovered from the first candidate. -/
def keyW : Key := ⟨1, [0, 150, 141, 1]⟩

/-- The 65-byte signature `sign_data` produces with `extW` and `keyW`:
header `31` (recovery id 0, compressed), then `r = rW`, `s = 2`. -/
def sigW : List Nat := 31 :: rBytesW ++ (List.replicate 31 0 ++ [2])

/-- A 65-byte signature with `s = 0`: the raw re-validation inside
`verify_digest` fails, raising `BadSignatureError`. -/
def sigBad : List Nat := 27 :: rBytesW ++ List.replicate 32 0

/-- The 64 raw signature bytes of `sigW` (its tail). -/
def sdW : List Nat := rBytesW ++ (List.replicate 31 0 ++ [2])

/-- x-coordinate of the public point recovered from `(rW, 2)` at
recovery id 0 and digest `eW`. -/
def qxW : Nat :=
  48617914307014651255600975881232946307490041229887206292404636080105730175382

/-- y-coordinate of the recovered public point. -/
def qyW : Nat :=
  21767305876707561668370562810686451250983727745949695187204423980357095262349

/-- `u₁ = e·s⁻¹ mod n = n - 1` for the concrete verification. -/
def u1W : Nat :=
  115792089237316195423570985008687907852837564279074904382605163141518161494336

/-- `u₂ = r·s⁻¹ mod n = 4⁻¹ mod n` for the concrete verification. -/
def u2W : Nat :=
  86844066927987146567678238756515930889628173209306178286953872356138621120753

/-- x-coordinate of `u₁·G = -G` (it equals the generator's). -/
def p1xW : Nat :=
  55066263022277343669578718895168534326250603453777594175500187360389116729240

/-- y-coordinate of `u₁·G = -G` (it equals `p - Gy`). -/
def p1yW : Nat :=
  83121579216557378445487899878180864668798711284981320763518679672151497189239

/-- x-coordinate of `u₂·Q`. -/
def p2xW : Nat :=
  100382599937828288554123370848113406377109168953486720283098370638820289705056

/-- y-coordinate of `u₂·Q`. -/
def p2yW : Nat :=
  93482879968331175479156758389243736591428011635115696569128138082562376274910

/-- y-coordinate of `u₁·G + u₂·Q` (whose x-coordinate is `rW` again,
closing the verification equation). -/
def sumYW : Nat :=
  26382307841847177853408423466354244409137734464369663137235017394574599349988

/-! ## Helper lemmas: codec -/

theorem num_to_bytes_length (c n : Nat) : (num_to_bytes c n).length = c := by
  simp [num_to_bytes]

theorem num_roundtrip (n : Nat) (h : n < 65536) :
    num_from_bytes SIZE_PREFIX_BYTES (num_to_bytes SIZE_PREFIX_BYTES n) = n := by
  have h1 : n / 256 < 256 := by omega
  simp [num_from_bytes, num_to_bytes, SIZE_PREFIX_BYTES, List.range_succ]
  omega

theorem nulldataScan_none (l : List TxOut) (i : Nat)
    (h : ∀ o ∈ l, isNulldata o = false) : nulldataScan l i = none := by
  induction l generalizing i with
  | nil => rfl
  | cons o os ih =>
    have ho := h o (List.mem_cons_self o os)
    simp only [nulldataScan, ho, Bool.false_eq_true, if_false]
    exact ih (i + 1) (fun o' ho' => h o' (List.mem_cons_of_mem _ ho'))

theorem nulldataScan_append (l₁ : List TxOut) (d : List Nat) (rest : List TxOut)
    (i : Nat) (h : ∀ o ∈ l₁, isNulldata o = false) :
    nulldataScan (l₁ ++ TxOut.nulldata d :: rest) i
      = some (i + l₁.length, .nulldata d) := by
  induction l₁ generalizing i with
  | nil => simp [nulldataScan, isNulldata]
  | cons o os ih =>
    have ho := h o (List.mem_cons_self o os)
    have ih' := ih (i + 1) (fun o' ho' => h o' (List.mem_cons_of_mem _ ho'))
    show nulldataScan (o :: (os ++ TxOut.nulldata d :: rest)) i = _
    simp only [nulldataScan, ho, Bool.false_eq_true, if_false, ih',
      List.length_cons]
    congr 2
    omega

theorem chunksBy_nil (n : Nat) : chunksBy n ([] : List α) = [] := by
  rcases n with _ | k
  · simp [chunksBy]
  · simp [chunksBy, Nat.div_eq_of_lt (Nat.lt_succ_self k)]

theorem chunksBy_cons {n : Nat} (hn : 0 < n) (l : List α) (hl : l ≠ []) :
    chunksBy n l = l.take n :: chunksBy n (l.drop n) := by
  have hlen : 1 ≤ l.length := List.length_pos.mpr hl
  have hcount : (l.length + n - 1) / n = ((l.drop n).length + n - 1) / n + 1 := by
    rw [List.length_drop]
    rcases le_or_lt l.length n with hle | hlt
    · have hz : l.length - n = 0 := by omega
      have h1 : (l.length + n - 1) / n = 1 := by
        apply Nat.div_eq_of_lt_le <;> omega
      rw [h1, hz, Nat.zero_add, Nat.div_eq_of_lt (by omega : n - 1 < n)]
    · have heq : l.length + n - 1 = (l.length - n + n - 1) + n := by omega
      rw [heq, Nat.add_div_right _ hn]
  unfold chunksBy
  rw [hcount, List.range_succ_eq_map, List.map_cons, List.map_map]
  have hhead : (l.drop (n * 0)).take n = l.take n := by simp
  have htail : ∀ i, ((fun i => (l.drop (n * i)).take n) ∘ Nat.succ) i
      = (fun i => ((l.drop n).drop (n * i)).take n) i := by
    intro i
    simp only [Function.comp_apply, List.drop_drop, Nat.mul_succ]
    congr 2
    omega
  rw [hhead, funext htail]

theorem chunksBy_length (n : Nat) (l : List α) :
    (chunksBy n l).length = (l.length + n - 1) / n := by
  simp [chunksBy]

/-- Concatenating the zero-padded 20-byte chunks restores the original
bytes followed by the final chunk's padding. -/
theorem flatten_pad_chunks (k : Nat) :
    ∀ l : List Nat, l.length ≤ k →
      ((chunksBy 20 l).map (fun c => c ++ List.replicate (20 - c.length) 0)).flatten
        = l ++ List.replicate (20 * ((l.length + 19) / 20) - l.length) 0 := by
  induction k with
  | zero =>
    intro l hl
    have : l = [] := List.eq_nil_of_length_eq_zero (by omega)
    subst this
    simp [chunksBy_nil]
  | succ k ih =>
    intro l hl
    rcases eq_or_ne l [] with rfl | hne
    · simp [chunksBy_nil]
    · have hlen : 1 ≤ l.length := List.length_pos.mpr hne
      rw [chunksBy_cons (by omega) l hne, List.map_cons, List.flatten_cons]
      rcases le_or_lt l.length 20 with hle | hlt
      · have hdrop : l.drop 20 = [] := List.drop_eq_nil_of_le hle
        rw [hdrop, chunksBy_nil]
        simp only [List.map_nil, List.flatten_nil, List.append_nil]
        rw [List.take_of_length_le hle]
        have hcnt : (l.length + 19) / 20 = 1 := by
          apply Nat.div_eq_of_lt_le <;> omega
        rw [hcnt]
      · have hdlen : (l.drop 20).length = l.length - 20 := List.length_drop 20 l
        have hrec := ih (l.drop 20) (by omega)
        rw [hrec]
        have htake : (l.take 20).length = 20 := by
          rw [List.length_take]
          omega
        rw [htake]
        simp only [Nat.sub_self, List.replicate_zero, List.append_nil]
        rw [← List.append_assoc, List.take_append_drop]
        have hcnt : (l.length + 19) / 20 = ((l.length - 20) + 19) / 20 + 1 := by
          have heq : l.length + 19 = ((l.length - 20) + 19) + 20 := by omega
          rw [heq, Nat.add_div_right _ (by omega)]
        rw [hdlen, hcnt]
        have harg : 20 * (((l.length - 20) + 19) / 20 + 1) - l.length
            = 20 * (((l.length - 20) + 19) / 20) - (l.length - 20) := by
          have h1 := Nat.div_add_mod ((l.length - 20) + 19) 20
          have h2 : ((l.length - 20) + 19) % 20 < 20 := Nat.mod_lt _ (by omega)
          omega
        rw [harg]

theorem foldl_add_hash160 (l : List (List Nat)) (f : List Nat → TxOut) (t : Tx) :
    l.foldl (fun t c => add_hash160data_output t (f c)) t
      = { txs_in := t.txs_in, txs_out := t.txs_out ++ l.map f } := by
  induction l generalizing t with
  | nil => simp
  | cons c cs ih =>
    rw [List.foldl_cons, ih]
    simp [add_hash160data_output]

theorem foldl_append_acc (l : List Nat) (g : Nat → List Nat) (a : List Nat) :
    l.foldl (fun acc i => acc ++ g i) a = a ++ (l.map g).flatten := by
  induction l generalizing a with
  | nil => simp
  | cons i is ih =>
    rw [List.foldl_cons, ih]
    simp

theorem range_map_getD (l : List α) (d : α) :
    (List.range l.length).map (fun i => l.getD i d) = l := by
  induction l with
  | nil => rfl
  | cons x xs ih =>
    rw [List.length_cons, List.range_succ_eq_map, List.map_cons, List.map_map]
    have hc : ∀ i, ((fun i => (x :: xs).getD i d) ∘ Nat.succ) i
        = (fun i => xs.getD i d) i := by
      intro i
      simp [List.getD_cons_succ]
    rw [funext hc, ih]
    simp [List.getD_cons_zero]

/-- Exact shape of a successful `add_data_blob` on a transaction with no
existing null-data output: the framed blob lands in one appended
null-data output, followed by the zero-padded 20-byte carrier outputs
when the frame exceeds the null-data capacity. -/
theorem add_data_blob_eq (max_nulldata : Nat) (tx : Tx) (data : List Nat)
    (dust_limit : Nat) (hsize : data.length ≤ 2 ^ 16)
    (hclean : ∀ o ∈ tx.txs_out, isNulldata o = false) :
    add_data_blob max_nulldata tx data dust_limit = .ok
      { txs_in := tx.txs_in,
        txs_out := tx.txs_out ++
          (if (num_to_bytes SIZE_PREFIX_BYTES data.length ++ data).length ≤ max_nulldata
           then [TxOut.nulldata (num_to_bytes SIZE_PREFIX_BYTES data.length ++ data)]
           else TxOut.nulldata
              ((num_to_bytes SIZE_PREFIX_BYTES data.length ++ data).take max_nulldata)
            :: (chunksBy 20
                ((num_to_bytes SIZE_PREFIX_BYTES data.length ++ data).drop max_nulldata)).map
                (fun c => TxOut.hash160data (c ++ List.replicate (20 - c.length) 0)
                  dust_limit)) } := by
  have hscan : nulldataScan tx.txs_out 0 = none := nulldataScan_none tx.txs_out 0 hclean
  have h16 : (2 : Nat) ^ (SIZE_PREFIX_BYTES * 8) = 65536 := by norm_num [SIZE_PREFIX_BYTES]
  unfold add_data_blob
  rw [h16, if_neg (by omega)]
  by_cases hone : (num_to_bytes SIZE_PREFIX_BYTES data.length ++ data).length ≤ max_nulldata
  · rw [if_pos hone]
    simp only [add_nulldata_output, nulldata_txout, _get_nulldata_output, hscan]
    rw [if_pos hone]
  · rw [if_neg hone]
    simp only [add_nulldata_output, nulldata_txout, hash160data_txout,
      _get_nulldata_output, hscan]
    rw [foldl_add_hash160 _
      (fun c => TxOut.hash160data (c ++ List.replicate (20 - c.length) 0) dust_limit)]
    rw [if_neg hone]
    simp [List.append_assoc]

/-- **C1.** Round trip of the data-blob codec: encoding a payload of at
most 65535 bytes into a transaction with no existing null-data output and
decoding the result returns exactly the original payload — in particular
the zero padding of the final carrier chunk is truncated away by the
declared size and never appears in the output. -/
theorem blob_roundtrip (max_nulldata : Nat) (tx : Tx) (data : List Nat)
    (dust_limit : Nat) (tx' : Tx) (hcap : 2 ≤ max_nulldata)
    (hlen : data.length ≤ 65535)
    (hclean : ∀ o ∈ tx.txs_out, isNulldata o = false)
    (henc : add_data_blob max_nulldata tx data dust_limit = .ok tx') :
    get_data_blob tx' = .ok data := by
  have hshape := add_data_blob_eq max_nulldata tx data dust_limit (by omega) hclean
  rw [henc] at hshape
  have htx' := Except.ok.inj hshape
  have hplen : (num_to_bytes SIZE_PREFIX_BYTES data.length).length = SIZE_PREFIX_BYTES :=
    num_to_bytes_length _ _
  have hflen : (num_to_bytes SIZE_PREFIX_BYTES data.length ++ data).length
      = 2 + data.length := by
    rw [List.length_append, hplen]
    simp [SIZE_PREFIX_BYTES]
  have hround : num_from_bytes SIZE_PREFIX_BYTES
      ((num_to_bytes SIZE_PREFIX_BYTES data.length ++ data).take SIZE_PREFIX_BYTES)
      = data.length := by
    rw [List.take_left' hplen]
    exact num_roundtrip data.length (by omega)
  by_cases hone : (num_to_bytes SIZE_PREFIX_BYTES data.length ++ data).length ≤ max_nulldata
  · -- single null-data output
    rw [if_pos hone] at htx'
    have hscan : _get_nulldata_output tx' = some (tx.txs_out.length,
        TxOut.nulldata (num_to_bytes SIZE_PREFIX_BYTES data.length ++ data)) := by
      rw [htx', _get_nulldata_output]
      show nulldataScan (tx.txs_out ++ TxOut.nulldata _ :: []) 0 = _
      rw [nulldataScan_append tx.txs_out _ [] 0 hclean, Nat.zero_add]
    simp only [get_data_blob, hscan, txoutNulldataBytes]
    rw [if_neg (by rw [hflen]; simp only [SIZE_PREFIX_BYTES]; omega)]
    have hdrop : (num_to_bytes SIZE_PREFIX_BYTES data.length ++ data).drop
        SIZE_PREFIX_BYTES = data := by
      rw [List.drop_left' hplen]
    rw [hround, hdrop]
    rw [if_neg (by omega), if_pos rfl]
  · -- null-data output plus padded carriers
    rw [if_neg hone] at htx'
    have hcaplt : max_nulldata < 2 + data.length := by omega
    have hndlen : ((num_to_bytes SIZE_PREFIX_BYTES data.length ++ data).take
        max_nulldata).length = max_nulldata := by
      rw [List.length_take]
      omega
    have hscan : _get_nulldata_output tx' = some (tx.txs_out.length,
        TxOut.nulldata ((num_to_bytes SIZE_PREFIX_BYTES data.length ++ data).take
          max_nulldata)) := by
      rw [htx', _get_nulldata_output]
      rw [nulldataScan_append tx.txs_out _ _ 0 hclean, Nat.zero_add]
    simp only [get_data_blob, hscan, txoutNulldataBytes]
    rw [if_neg (by rw [hndlen]; simp [SIZE_PREFIX_BYTES]; omega)]
    have htake2 : ((num_to_bytes SIZE_PREFIX_BYTES data.length ++ data).take
        max_nulldata).take SIZE_PREFIX_BYTES
        = (num_to_bytes SIZE_PREFIX_BYTES data.length ++ data).take SIZE_PREFIX_BYTES := by
      rw [List.take_take]
      congr 1
      simp [SIZE_PREFIX_BYTES]
      omega
    rw [htake2, hround]
    have hdata0 : ((num_to_bytes SIZE_PREFIX_BYTES data.length ++ data).take
        max_nulldata).drop SIZE_PREFIX_BYTES = data.take (max_nulldata - 2) := by
      rw [List.take_append_eq_append_take,
        List.take_of_length_le (by rw [hplen]; simp [SIZE_PREFIX_BYTES]; omega),
        List.drop_left' hplen, hplen]
      simp [SIZE_PREFIX_BYTES]
    rw [hdata0]
    have hd0len : (data.take (max_nulldata - 2)).length = max_nulldata - 2 := by
      rw [List.length_take]
      omega
    rw [hd0len]
    rw [if_neg (by omega), if_neg (by omega)]
    have hrestlen : ((num_to_bytes SIZE_PREFIX_BYTES data.length ++ data).drop
        max_nulldata).length = 2 + data.length - max_nulldata := by
      rw [List.length_drop, hflen]
    have hreq2 : data.length - (max_nulldata - 2)
        = ((num_to_bytes SIZE_PREFIX_BYTES data.length ++ data).drop
            max_nulldata).length := by
      rw [hrestlen]
      omega
    rw [hreq2]
    have hcarlen : ((chunksBy 20 ((num_to_bytes SIZE_PREFIX_BYTES data.length
        ++ data).drop max_nulldata)).map
        (fun c => TxOut.hash160data (c ++ List.replicate (20 - c.length) 0)
          dust_limit)).length
        = (((num_to_bytes SIZE_PREFIX_BYTES data.length ++ data).drop
            max_nulldata).length + 19) / 20 := by
      rw [List.length_map, chunksBy_length]
      omega
    have houtlen : tx'.txs_out.length = tx.txs_out.length + 1
        + (((num_to_bytes SIZE_PREFIX_BYTES data.length ++ data).drop
            max_nulldata).length + 19) / 20 := by
      rw [htx']
      simp only [List.length_append, List.length_cons, hcarlen]
      omega
    rw [if_neg (by rw [houtlen]; omega)]
    have hg : (List.range ((((num_to_bytes SIZE_PREFIX_BYTES data.length ++ data).drop
          max_nulldata).length + 19) / 20)).map
        (fun i => get_hash160_data tx' (i + tx.txs_out.length + 1))
        = (chunksBy 20 ((num_to_bytes SIZE_PREFIX_BYTES data.length ++ data).drop
            max_nulldata)).map (fun c => c ++ List.replicate (20 - c.length) 0) := by
      rw [← hcarlen]
      have hstep : ∀ i, get_hash160_data tx' (i + tx.txs_out.length + 1)
          = extract160 (((chunksBy 20 ((num_to_bytes SIZE_PREFIX_BYTES data.length
              ++ data).drop max_nulldata)).map
              (fun c => TxOut.hash160data (c ++ List.replicate (20 - c.length) 0)
                dust_limit)).getD i (TxOut.nulldata [])) := by
        intro i
        have houts : tx'.txs_out = tx.txs_out ++ TxOut.nulldata
            ((num_to_bytes SIZE_PREFIX_BYTES data.length ++ data).take max_nulldata)
          :: (chunksBy 20 ((num_to_bytes SIZE_PREFIX_BYTES data.length ++ data).drop
              max_nulldata)).map
            (fun c => TxOut.hash160data (c ++ List.replicate (20 - c.length) 0)
              dust_limit) := by
          rw [htx']
        have hidx : i + tx.txs_out.length + 1 = tx.txs_out.length + (i + 1) := by omega
        rw [get_hash160_data, houts, hidx,
          List.getD_append_right _ _ _ _ (Nat.le_add_right _ _)]
        congr 1
        rw [Nat.add_sub_cancel_left]
        exact List.getD_cons_succ
      rw [List.map_congr_left (fun i _ => hstep i)]
      rw [show (fun i => extract160 (((chunksBy 20 ((num_to_bytes SIZE_PREFIX_BYTES
            data.length ++ data).drop max_nulldata)).map
            (fun c => TxOut.hash160data (c ++ List.replicate (20 - c.length) 0)
              dust_limit)).getD i (TxOut.nulldata [])))
          = (extract160 ∘ (fun i => ((chunksBy 20 ((num_to_bytes SIZE_PREFIX_BYTES
            data.length ++ data).drop max_nulldata)).map
            (fun c => TxOut.hash160data (c ++ List.replicate (20 - c.length) 0)
              dust_limit)).getD i (TxOut.nulldata []))) from rfl]
      rw [← List.map_map, range_map_getD, List.map_map]
      exact List.map_congr_left (fun c _ => rfl)
    rw [foldl_append_acc, hg,
      flatten_pad_chunks ((num_to_bytes SIZE_PREFIX_BYTES data.length ++ data).drop
        max_nulldata).length _ (le_refl _)]
    have hrestdata : (num_to_bytes SIZE_PREFIX_BYTES data.length ++ data).drop
        max_nulldata = data.drop (max_nulldata - 2) := by
      rw [List.drop_append_eq_append_drop,
        List.drop_eq_nil_of_le (by rw [hplen]; simp [SIZE_PREFIX_BYTES]; omega), hplen]
      simp [SIZE_PREFIX_BYTES]
    rw [hrestdata, ← List.append_assoc, List.take_append_drop]
    congr 1
    exact List.take_left data _

/-- Evaluation of **C1** on a concrete input: a 50-byte payload encoded
with the repository's 40-byte null-data capacity (one padded carrier
chunk) decodes back exactly. -/
theorem blob_roundtrip_witness : get_data_blob encodedTx50 = .ok payload50 :=
  blob_roundtrip 40 ⟨[], []⟩ payload50 600 encodedTx50 (by decide) (by decide)
    (by decide) (by decide)

/-- A successful `add_data_blob` implies the payload passed the size
check and the transaction had no null-data output. -/
theorem add_data_blob_ok_inv (max_nulldata : Nat) (tx : Tx) (data : List Nat)
    (dust_limit : Nat) (tx' : Tx)
    (h : add_data_blob max_nulldata tx data dust_limit = .ok tx') :
    data.length ≤ 2 ^ 16 ∧ nulldataScan tx.txs_out 0 = none := by
  unfold add_data_blob at h
  by_cases hs : data.length > 2 ^ (SIZE_PREFIX_BYTES * 8)
  · rw [if_pos hs] at h
    exact absurd h (by simp)
  · rw [if_neg hs] at h
    have hsz : data.length ≤ 2 ^ 16 := by
      have : (2 : Nat) ^ (SIZE_PREFIX_BYTES * 8) = 2 ^ 16 := by
        norm_num [SIZE_PREFIX_BYTES]
      omega
    refine ⟨hsz, ?_⟩
    rcases hscan : nulldataScan tx.txs_out 0 with _ | p
    · rfl
    · exfalso
      by_cases hone : (num_to_bytes SIZE_PREFIX_BYTES data.length ++ data).length
          ≤ max_nulldata
      · rw [if_pos hone] at h
        simp only [add_nulldata_output, _get_nulldata_output, hscan] at h
        exact Except.noConfusion h
      · rw [if_neg hone] at h
        simp only [add_nulldata_output, _get_nulldata_output, hscan] at h
        exact Except.noConfusion h

theorem nulldataScan_none_forall (l : List TxOut) (i : Nat)
    (h : nulldataScan l i = none) : ∀ o ∈ l, isNulldata o = false := by
  induction l generalizing i with
  | nil => intro o ho; exact absurd ho (List.not_mem_nil o)
  | cons o os ih =>
    intro o' ho'
    by_cases hn : isNulldata o = true
    · rw [nulldataScan, if_pos hn] at h
      exact absurd h (by simp)
    · rcases List.mem_cons.mp ho' with rfl | hmem
      · exact Bool.not_eq_true _ |>.mp hn
      · rw [nulldataScan, if_neg hn] at h
        exact ih (i + 1) h o' hmem

/-- Helper for the size-check bug: any payload of exactly 65536 bytes is
accepted by `add_data_blob`, and the encoded transaction fails to decode
because the 2-byte size prefix wraps to zero. -/
theorem add_data_blob_wrap_decode_fails (data : List Nat) (dust_limit : Nat)
    (hlen : data.length = 65536) :
    ∃ tx', add_data_blob 40 ⟨[], []⟩ data dust_limit = .ok tx'
      ∧ get_data_blob tx' = .error .noDataBlob := by
  have hplen : (num_to_bytes SIZE_PREFIX_BYTES data.length).length
      = SIZE_PREFIX_BYTES := num_to_bytes_length _ _
  have hflen : (num_to_bytes SIZE_PREFIX_BYTES data.length ++ data).length = 65538 := by
    rw [List.length_append, hplen, hlen]
    simp [SIZE_PREFIX_BYTES]
  have henc := add_data_blob_eq 40 ⟨[], []⟩ data dust_limit
    (by rw [hlen]; norm_num) (by intro o ho; exact absurd ho (List.not_mem_nil o))
  rw [if_neg (by rw [hflen]; omega)] at henc
  refine ⟨_, henc, ?_⟩
  have hscan : _get_nulldata_output
      { txs_in := ([] : List TxIn),
        txs_out := [] ++ TxOut.nulldata ((num_to_bytes SIZE_PREFIX_BYTES data.length
            ++ data).take 40)
          :: (chunksBy 20 ((num_to_bytes SIZE_PREFIX_BYTES data.length
              ++ data).drop 40)).map
            (fun c => TxOut.hash160data (c ++ List.replicate (20 - c.length) 0)
              dust_limit) }
      = some (0, TxOut.nulldata ((num_to_bytes SIZE_PREFIX_BYTES data.length
          ++ data).take 40)) := by
    rw [_get_nulldata_output]
    exact nulldataScan_append [] _ _ 0 (by intro o ho; exact absurd ho (List.not_mem_nil o))
  simp only [get_data_blob, hscan, txoutNulldataBytes]
  rw [if_neg (by rw [List.length_take, hflen]; simp only [SIZE_PREFIX_BYTES]; omega)]
  have htake2 : ((num_to_bytes SIZE_PREFIX_BYTES data.length ++ data).take 40).take
      SIZE_PREFIX_BYTES = num_to_bytes SIZE_PREFIX_BYTES data.length := by
    rw [List.take_take]
    rw [show min SIZE_PREFIX_BYTES 40 = SIZE_PREFIX_BYTES from by
      simp only [SIZE_PREFIX_BYTES]; omega]
    exact List.take_left' hplen
  rw [htake2]
  have hzero : num_from_bytes SIZE_PREFIX_BYTES
      (num_to_bytes SIZE_PREFIX_BYTES data.length) = 0 := by
    rw [hlen]
    decide
  rw [hzero]
  rw [if_pos ?pos]
  case pos =>
    rw [List.length_drop, List.length_take, hflen]
    simp only [SIZE_PREFIX_BYTES]
    omega

/-- **C4** (code bug): the source guards `len(data) > 2 ** 16`, so a
65536-byte payload — one more than the 2-byte big-endian length prefix
can represent — passes the size check and is encoded rather than
rejected with `MaxDataBlobSizeExceeded`; the resulting transaction then
fails to decode (the wrapped size prefix reads zero), breaking the
round trip the bound exists to protect. -/
theorem add_data_blob_size_check_off_by_one :
    ∃ tx', add_data_blob 40 ⟨[], []⟩ (List.replicate 65536 0) 600 = .ok tx'
      ∧ get_data_blob tx' = .error .noDataBlob :=
  add_data_blob_wrap_decode_fails (List.replicate 65536 0) 600
    (List.length_replicate 65536 0)

/-- **C8** is violated as literally stated: a transaction that already
contains a null-data output combined with an oversized payload makes
`add_data_blob` fail with `MaxDataBlobSizeExceeded` (the size check runs
first), not `ExistingNulldataOutput`. -/
theorem existing_nulldata_oversize_counterexample :
    add_data_blob 40 ⟨[], [TxOut.nulldata [0, 0]]⟩ (List.replicate 65537 0) 600
      = .error (.maxDataBlobSizeExceeded 65536 65537)
    ∧ add_data_blob 40 ⟨[], [TxOut.nulldata [0, 0]]⟩ (List.replicate 65537 0) 600
      ≠ .error .existingNulldataOutput := by
  have h : add_data_blob 40 ⟨[], [TxOut.nulldata [0, 0]]⟩ (List.replicate 65537 0) 600
      = .error (.maxDataBlobSizeExceeded 65536 65537) := by
    unfold add_data_blob
    rw [show (2:Nat) ^ (SIZE_PREFIX_BYTES * 8) = 65536 from by norm_num [SIZE_PREFIX_BYTES]]
    rw [List.length_replicate, if_pos (by omega)]
  exact ⟨h, by rw [h]; simp⟩

theorem nulldataScan_some (l : List TxOut) (i : Nat)
    (h : ∃ o ∈ l, isNulldata o = true) : ∃ p, nulldataScan l i = some p := by
  induction l generalizing i with
  | nil => obtain ⟨o, ho, _⟩ := h; exact absurd ho (List.not_mem_nil o)
  | cons o os ih =>
    by_cases hn : isNulldata o = true
    · exact ⟨(i, o), by rw [nulldataScan, if_pos hn]⟩
    · obtain ⟨o', ho', hn'⟩ := h
      rcases List.mem_cons.mp ho' with rfl | hmem
      · exact absurd hn' hn
      · obtain ⟨p, hp⟩ := ih (i + 1) ⟨o', hmem, hn'⟩
        exact ⟨p, by rw [nulldataScan, if_neg hn]; exact hp⟩

/-- **C8** (amended): at most one null-data output per transaction.
A transaction that already contains one makes `add_nulldata_output` fail
with `ExistingNulldataOutput`; `add_data_blob` fails the same way for
every payload passing the size check, and `add_broadcast_message` does
too whenever signing succeeds and the frame passes the size check; and a
successful `add_data_blob` leaves exactly one null-data output. -/
theorem nulldata_output_unique :
    (∀ (tx : Tx) (o : TxOut), (∃ out ∈ tx.txs_out, isNulldata out = true) →
      add_nulldata_output tx o = .error .existingNulldataOutput)
    ∧ (∀ (max_nulldata : Nat) (tx : Tx) (data : List Nat) (dust_limit : Nat),
      (∃ out ∈ tx.txs_out, isNulldata out = true) → data.length ≤ 2 ^ 16 →
      add_data_blob max_nulldata tx data dust_limit
        = .error .existingNulldataOutput)
    ∧ (∀ (ext : Ext) (testnet : Bool) (max_nulldata : Nat) (tx : Tx)
        (message : List Nat) (sender_key : Key) (dust_limit : Nat) (sig : List Nat),
      (∃ out ∈ tx.txs_out, isNulldata out = true) →
      sign_data ext testnet message sender_key = .ok sig →
      (sig ++ List.replicate 13 0 ++ _address_to_hash160 ext testnet sender_key.address
        ++ ext.compress message).length ≤ 2 ^ 16 →
      add_broadcast_message ext testnet max_nulldata tx message sender_key dust_limit
        = .error .existingNulldataOutput)
    ∧ (∀ (max_nulldata : Nat) (tx : Tx) (data : List Nat) (dust_limit : Nat) (tx' : Tx),
      add_data_blob max_nulldata tx data dust_limit = .ok tx' →
      (tx'.txs_out.filter isNulldata).length = 1) := by
  have hadd : ∀ (tx : Tx) (o : TxOut), (∃ out ∈ tx.txs_out, isNulldata out = true) →
      add_nulldata_output tx o = .error .existingNulldataOutput := by
    intro tx o hex
    obtain ⟨p, hp⟩ := nulldataScan_some tx.txs_out 0 hex
    rw [add_nulldata_output, _get_nulldata_output, hp]
  have hblob : ∀ (max_nulldata : Nat) (tx : Tx) (data : List Nat) (dust_limit : Nat),
      (∃ out ∈ tx.txs_out, isNulldata out = true) → data.length ≤ 2 ^ 16 →
      add_data_blob max_nulldata tx data dust_limit
        = .error .existingNulldataOutput := by
    intro max_nulldata tx data dust_limit hex hsz
    unfold add_data_blob
    rw [show (2:Nat) ^ (SIZE_PREFIX_BYTES * 8) = 2 ^ 16 from by
      norm_num [SIZE_PREFIX_BYTES]]
    rw [if_neg (by omega)]
    by_cases hone : (num_to_bytes SIZE_PREFIX_BYTES data.length ++ data).length
        ≤ max_nulldata
    · rw [if_pos hone, hadd tx _ hex]
    · rw [if_neg hone, hadd tx _ hex]
  refine ⟨hadd, hblob, ?_, ?_⟩
  · intro ext testnet max_nulldata tx message sender_key dust_limit sig hex hsig hsz
    rw [add_broadcast_message, hsig]
    show add_data_blob max_nulldata tx _ dust_limit = _
    exact hblob max_nulldata tx _ dust_limit hex hsz
  · intro max_nulldata tx data dust_limit tx' h
    obtain ⟨hsz, hscan⟩ := add_data_blob_ok_inv max_nulldata tx data dust_limit tx' h
    have hclean := nulldataScan_none_forall tx.txs_out 0 hscan
    have hshape := add_data_blob_eq max_nulldata tx data dust_limit hsz hclean
    rw [h] at hshape
    have htx' := Except.ok.inj hshape
    rw [htx']
    have hfilterP : tx.txs_out.filter isNulldata = [] := by
      rw [List.filter_eq_nil_iff]
      intro o ho
      rw [hclean o ho]
      exact Bool.false_ne_true
    by_cases hone : (num_to_bytes SIZE_PREFIX_BYTES data.length ++ data).length
        ≤ max_nulldata
    · rw [if_pos hone]
      simp only [List.filter_append, hfilterP]
      simp [isNulldata]
    · rw [if_neg hone]
      simp only [List.filter_append, hfilterP]
      have hcar : ((chunksBy 20 ((num_to_bytes SIZE_PREFIX_BYTES data.length
          ++ data).drop max_nulldata)).map
          (fun c => TxOut.hash160data (c ++ List.replicate (20 - c.length) 0)
            dust_limit)).filter isNulldata = [] := by
        rw [List.filter_eq_nil_iff]
        intro o ho
        obtain ⟨c, _, rfl⟩ := List.mem_map.mp ho
        simp [isNulldata]
      simp only [List.filter_cons]
      rw [show isNulldata (TxOut.nulldata ((num_to_bytes SIZE_PREFIX_BYTES data.length
          ++ data).take max_nulldata)) = true from rfl]
      simp [hcar]

/-- Evaluation of **C8** on concrete inputs: adding to a transaction that
already carries a null-data output fails with `ExistingNulldataOutput`,
and the concrete encoding of `payload50` has exactly one null-data
output. -/
theorem nulldata_output_unique_witness :
    add_nulldata_output ⟨[], [TxOut.nulldata [0, 0]]⟩ (TxOut.payto [7] 5)
      = .error .existingNulldataOutput
    ∧ add_data_blob 40 ⟨[], [TxOut.nulldata [0, 0]]⟩ [1, 2, 3] 600
      = .error .existingNulldataOutput
    ∧ (encodedTx50.txs_out.filter isNulldata).length = 1 :=
  ⟨nulldata_output_unique.1 _ _ (by decide),
   nulldata_output_unique.2.1 40 _ [1, 2, 3] 600 (by decide) (by norm_num),
   nulldata_output_unique.2.2.2 40 ⟨[], []⟩ payload50 600 encodedTx50 (by decide)⟩

/-! ## Helper lemmas: UTXO allocator -/

theorem sum_range_if (q r : Int) :
    ∀ m : Nat, 1 ≤ m →
      ((List.range m).map (fun i : Nat => if i = 0 then q + r else q)).sum
        = m * q + r := by
  intro m hm
  induction m with
  | zero => omega
  | succ k ih =>
    rw [List.range_succ, List.map_append, List.sum_append]
    rcases Nat.eq_zero_or_pos k with rfl | hk
    · simp
    · rw [ih hk]
      have hkne : k ≠ 0 := by omega
      simp only [List.map_cons, List.map_nil, if_neg hkne, List.sum_cons,
        List.sum_nil]
      push_cast
      ring

/-- Shape of a successful `_outputs` call. -/
theorem outputs_ok_shape (testnet : Bool)
    (inputs_total fee max_outputs limit : Nat) (key : Key) (txouts : List TxOut)
    (h : _outputs testnet inputs_total fee max_outputs limit key = .ok txouts) :
    1 ≤ txouts_cnt inputs_total fee max_outputs limit
    ∧ txouts = (List.range (txouts_cnt inputs_total fee max_outputs limit).toNat).map
        (fun i => TxOut.payto key.address
          (if i = 0
           then txout_amount inputs_total fee max_outputs limit
              + rounded_amount inputs_total fee max_outputs limit
           else txout_amount inputs_total fee max_outputs limit))
    ∧ (txouts.map coinValue).sum = txouts_total inputs_total fee := by
  unfold _outputs at h
  by_cases hguard : txouts_total inputs_total fee > (max_outputs : Int) * (limit : Int)
      ∨ (limit : Int) ≠ 0
  · rw [if_pos hguard] at h
    by_cases hz : txouts_cnt inputs_total fee max_outputs limit = 0
    · rw [if_pos hz] at h
      exact absurd h (by simp)
    · rw [if_neg hz] at h
      by_cases hassert : txouts_total inputs_total fee
          = (((List.range (txouts_cnt inputs_total fee max_outputs limit).toNat).map
              (fun i => TxOut.payto key.address
                (if i = 0
                 then txout_amount inputs_total fee max_outputs limit
                    + rounded_amount inputs_total fee max_outputs limit
                 else txout_amount inputs_total fee max_outputs limit))).map
              coinValue).sum
      · rw [if_pos hassert] at h
        have htx := Except.ok.inj h
        subst htx
        refine ⟨?_, rfl, hassert.symm⟩
        by_contra hlt
        have hneg : txouts_cnt inputs_total fee max_outputs limit < 0 := by omega
        have htoNat : (txouts_cnt inputs_total fee max_outputs limit).toNat = 0 := by
          omega
        rw [htoNat] at hassert
        simp only [List.range_zero, List.map_nil, List.sum_nil] at hassert
        have hcnt0 : txouts_cnt inputs_total fee max_outputs limit = 0 := by
          unfold txouts_cnt at hneg hz ⊢
          by_cases hb : txouts_total inputs_total fee
              > (max_outputs : Int) * (limit : Int)
          · rw [if_pos hb] at hneg
            omega
          · rw [if_neg hb] at hneg hz ⊢
            rw [hassert, Int.zero_fdiv]
        exact hz hcnt0
      · rw [if_neg hassert] at h
        exact absurd h (by simp)
  · rw [if_neg hguard] at h
    exact absurd h (by simp)

/-- **C5.** Partition exactness of `_outputs`: whenever `_outputs`
succeeds (as it does for every transaction built by `split_utxos`), the
output count is `max_outputs` when `inputs_total - fee` exceeds
`max_outputs * limit` and `(inputs_total - fee) // limit` otherwise;
every output carries `(inputs_total - fee) // count`, except the first,
which additionally receives the entire integer-division remainder; and
the output values sum to exactly `inputs_total - fee`. -/
theorem outputs_partition_exact (testnet : Bool)
    (inputs_total fee max_outputs limit : Nat) (key : Key) (txouts : List TxOut)
    (h : _outputs testnet inputs_total fee max_outputs limit key = .ok txouts) :
    1 ≤ txouts_cnt inputs_total fee max_outputs limit
    ∧ (txouts_total inputs_total fee > (max_outputs : Int) * (limit : Int) →
        txouts_cnt inputs_total fee max_outputs limit = max_outputs)
    ∧ (¬ txouts_total inputs_total fee > (max_outputs : Int) * (limit : Int) →
        txouts_cnt inputs_total fee max_outputs limit
          = (txouts_total inputs_total fee).fdiv (limit : Int))
    ∧ txouts.length = (txouts_cnt inputs_total fee max_outputs limit).toNat
    ∧ (∀ (i : Nat) (hi : i < txouts.length),
        coinValue (txouts.get ⟨i, hi⟩)
          = if i = 0
            then txout_amount inputs_total fee max_outputs limit
              + rounded_amount inputs_total fee max_outputs limit
            else txout_amount inputs_total fee max_outputs limit)
    ∧ (txouts.map coinValue).sum = (inputs_total : Int) - (fee : Int) := by
  obtain ⟨hcnt, hshape, hsum⟩ := outputs_ok_shape testnet inputs_total fee
    max_outputs limit key txouts h
  have hsum' : (txouts.map coinValue).sum = (inputs_total : Int) - (fee : Int) := hsum
  subst hshape
  refine ⟨hcnt, fun hb => by rw [txouts_cnt, if_pos hb],
    fun hb => by rw [txouts_cnt, if_neg hb], by simp, ?_, hsum'⟩
  intro i hi
  rw [List.get_eq_getElem]
  simp only [List.getElem_map, List.getElem_range]
  rfl

/-- Evaluation of **C5** on a concrete input: distributing `100 - 10`
over up to 4 outputs limited at 20 each gives 4 outputs `[24, 22, 22,
22]` summing to 90. -/
theorem outputs_partition_exact_witness :
    1 ≤ txouts_cnt 100 10 4 20
    ∧ [TxOut.payto [7] 24, TxOut.payto [7] 22, TxOut.payto [7] 22,
        TxOut.payto [7] 22].length = (txouts_cnt 100 10 4 20).toNat
    ∧ ([TxOut.payto [7] 24, TxOut.payto [7] 22, TxOut.payto [7] 22,
        TxOut.payto [7] 22].map coinValue).sum = (100 : Int) - (10 : Int) := by
  have h := outputs_partition_exact false 100 10 4 20 ⟨1, [7]⟩
    [TxOut.payto [7] 24, TxOut.payto [7] 22, TxOut.payto [7] 22, TxOut.payto [7] 22]
    (by decide)
  exact ⟨h.1, h.2.2.2.1, h.2.2.2.2.2⟩

theorem insertB_mem (le : α → α → Bool) (x : α) (l : List α) (b : α) :
    b ∈ insertB le x l ↔ b = x ∨ b ∈ l := by
  induction l with
  | nil => simp [insertB]
  | cons y ys ih =>
    rw [insertB]
    by_cases hxy : le x y = true
    · rw [if_pos hxy]
      simp [List.mem_cons]
    · rw [if_neg hxy]
      simp only [List.mem_cons, ih]
      tauto

theorem insertB_perm (le : α → α → Bool) (x : α) (l : List α) :
    (insertB le x l).Perm (x :: l) := by
  induction l with
  | nil => simp [insertB]
  | cons y ys ih =>
    rw [insertB]
    by_cases hxy : le x y = true
    · rw [if_pos hxy]
    · rw [if_neg hxy]
      exact (ih.cons y).trans (List.Perm.swap x y ys)

theorem sortB_perm (le : α → α → Bool) (l : List α) : (sortB le l).Perm l := by
  induction l with
  | nil => rfl
  | cons x xs ih => exact (insertB_perm le x (sortB le xs)).trans (ih.cons x)

theorem sortB_mem (le : α → α → Bool) (l : List α) (b : α) :
    b ∈ sortB le l ↔ b ∈ l := (sortB_perm le l).mem_iff

theorem sortB_length (le : α → α → Bool) (l : List α) :
    (sortB le l).length = l.length := (sortB_perm le l).length_eq

theorem insertB_pairwise (le : α → α → Bool)
    (htrans : ∀ a b c, le a b = true → le b c = true → le a c = true)
    (htotal : ∀ a b, le a b = true ∨ le b a = true)
    (x : α) (l : List α) (hl : l.Pairwise (fun a b => le a b = true)) :
    (insertB le x l).Pairwise (fun a b => le a b = true) := by
  induction l with
  | nil => simp [insertB]
  | cons y ys ih =>
    rw [insertB]
    rcases List.pairwise_cons.mp hl with ⟨hy, hys⟩
    by_cases hxy : le x y = true
    · rw [if_pos hxy]
      refine List.Pairwise.cons ?_ hl
      intro b hb
      rcases List.mem_cons.mp hb with rfl | hmem
      · exact hxy
      · exact htrans x y b hxy (hy b hmem)
    · rw [if_neg hxy]
      refine List.Pairwise.cons ?_ (ih hys)
      intro b hb
      rcases (insertB_mem le x ys b).mp hb with hbx | hmem
      · subst hbx
        rcases htotal b y with h | h
        · exact absurd h hxy
        · exact h
      · exact hy b hmem

theorem sortB_pairwise (le : α → α → Bool)
    (htrans : ∀ a b c, le a b = true → le b c = true → le a c = true)
    (htotal : ∀ a b, le a b = true ∨ le b a = true) (l : List α) :
    (sortB le l).Pairwise (fun a b => le a b = true) := by
  induction l with
  | nil => exact List.Pairwise.nil
  | cons x xs ih => exact insertB_pairwise le htrans htotal x (sortB le xs) ih

theorem sumCoins_append (l₁ l₂ : List Spendable) :
    sumCoins (l₁ ++ l₂) = sumCoins l₁ + sumCoins l₂ := by
  simp [sumCoins]

theorem sumCoins_reverse (l : List Spendable) : sumCoins l.reverse = sumCoins l := by
  simp [sumCoins, List.sum_reverse]

theorem mem_le_sumCoins (l : List Spendable) (s : Spendable) (h : s ∈ l) :
    s.coin_value ≤ sumCoins l := by
  induction l with
  | nil => exact absurd h (List.not_mem_nil s)
  | cons x xs ih =>
    rcases List.mem_cons.mp h with rfl | hmem
    · simp [sumCoins]
    · have := ih hmem
      simp only [sumCoins, List.map_cons, List.sum_cons] at this ⊢
      omega

/-- Membership in the dust-filtered working set. -/
theorem filter_dust_mem (sp : List Spendable) (fee limit : Nat) (s : Spendable)
    (h : s ∈ _filter_dust sp fee limit) :
    fee < s.coin_value ∧ limit < s.coin_value ∧ s ∈ sp := by
  rw [_filter_dust, sortB_mem] at h
  have h2 := List.mem_filter.mp h
  have h1 := List.mem_filter.mp h2.1
  refine ⟨by simpa using h1.2, by simpa using h2.2, h1.1⟩

theorem filter_dust_length (sp : List Spendable) (fee limit : Nat) :
    (_filter_dust sp fee limit).length ≤ sp.length := by
  rw [_filter_dust, sortB_length]
  exact le_trans (List.length_filter_le _ _) (List.length_filter_le _ _)

/-- Invariants of the `while` loop of `_take_txins`: the returned total is
the sum of the selected inputs, the loop exits only past `maxinput` or on
exhaustion, coins are conserved, and the selected inputs extend the
accumulator by elements of the working list. -/
theorem takeTxinsGo_spec (maxinput : Nat) :
    ∀ (revRest inputs : List Spendable),
      (takeTxinsGo maxinput revRest inputs).2.1
          = sumCoins (takeTxinsGo maxinput revRest inputs).1
      ∧ ((takeTxinsGo maxinput revRest inputs).2.1 > maxinput
          ∨ (takeTxinsGo maxinput revRest inputs).2.2 = [])
      ∧ sumCoins (takeTxinsGo maxinput revRest inputs).1
          + sumCoins (takeTxinsGo maxinput revRest inputs).2.2
          = sumCoins inputs + sumCoins revRest
      ∧ ∃ ext, (takeTxinsGo maxinput revRest inputs).1 = inputs ++ ext
          ∧ ∀ s ∈ ext, s ∈ revRest := by
  intro revRest
  induction revRest with
  | nil =>
    intro inputs
    refine ⟨rfl, Or.inr rfl, ?_, ⟨[], by simp [takeTxinsGo], by simp⟩⟩
    simp [takeTxinsGo, sumCoins]
  | cons s rest ih =>
    intro inputs
    rw [takeTxinsGo]
    by_cases hstop : sumCoins inputs > maxinput
    · rw [if_pos hstop]
      exact ⟨rfl, Or.inl hstop, by simp [sumCoins], ⟨[], by simp, by simp⟩⟩
    · rw [if_neg hstop]
      obtain ⟨h1, h2, h3, ext, hext, hmem⟩ := ih (inputs ++ [s])
      refine ⟨h1, h2, ?_, ⟨s :: ext, ?_, ?_⟩⟩
      · rw [h3, sumCoins_append]
        simp only [sumCoins, List.map_cons, List.sum_cons, List.map_nil,
          List.sum_nil]
        omega
      · rw [hext]
        simp
      · intro s' hs'
        rcases List.mem_cons.mp hs' with rfl | hmem'
        · exact List.mem_cons_self s' rest
        · exact List.mem_cons_of_mem s (hmem s' hmem')

theorem takeTxinsGo_rest_le (maxinput : Nat) :
    ∀ (revRest inputs : List Spendable),
      (takeTxinsGo maxinput revRest inputs).2.2.length ≤ revRest.length := by
  intro revRest
  induction revRest with
  | nil => intro inputs; simp [takeTxinsGo]
  | cons s rest ih =>
    intro inputs
    rw [takeTxinsGo]
    by_cases hstop : sumCoins inputs > maxinput
    · rw [if_pos hstop]
    · rw [if_neg hstop]
      exact le_trans (ih (inputs ++ [s])) (by simp)

/-- **C9, part:** `_take_txins` removes at least one spendable whenever
the working list is non-empty. -/
theorem take_txins_shrinks (sp : List Spendable) (limit max_outputs fee : Nat)
    (h : sp ≠ []) :
    (_take_txins sp limit max_outputs fee).2.2.length < sp.length := by
  simp only [_take_txins]
  rcases hrev : sp.reverse with _ | ⟨s, rest⟩
  · exact absurd (by simpa using congrArg List.reverse hrev) h
  · have hlen : sp.length = rest.length + 1 := by
      have := congrArg List.length hrev
      simpa [Nat.add_comm] using this
    rw [takeTxinsGo, if_neg (by simp [sumCoins])]
    have := takeTxinsGo_rest_le (limit * max_outputs + fee) rest ([] ++ [s])
    simp only [List.length_reverse]
    omega

/-- `_outputs` succeeds — with at least one output and an exact sum —
whenever `max_outputs ≥ 1`, the total strictly exceeds the fee, and
either the total overshoots `limit * max_outputs + fee` or it reaches
`fee + 2 * limit`. -/
theorem outputs_ok_of_ge (testnet : Bool) (inputs_total fee max_outputs limit : Nat)
    (key : Key) (hmo : 1 ≤ max_outputs) (hgt : fee + 1 ≤ inputs_total)
    (hcase : inputs_total > limit * max_outputs + fee
      ∨ fee + 2 * limit ≤ inputs_total) :
    ∃ txouts, _outputs testnet inputs_total fee max_outputs limit key = .ok txouts
      ∧ 1 ≤ txouts_cnt inputs_total fee max_outputs limit
      ∧ (txouts.map coinValue).sum = (inputs_total : Int) - (fee : Int) := by
  have htau : (1 : Int) ≤ txouts_total inputs_total fee := by
    rw [txouts_total]
    omega
  have hcnt : 1 ≤ txouts_cnt inputs_total fee max_outputs limit := by
    rw [txouts_cnt]
    by_cases hb : txouts_total inputs_total fee > (max_outputs : Int) * (limit : Int)
    · rw [if_pos hb]
      omega
    · rw [if_neg hb]
      have hlim : 1 ≤ limit := by
        by_contra hl
        have hlim0 : (limit : Int) = 0 := by omega
        rw [txouts_total, hlim0, mul_zero] at hb
        omega
      have hle : fee + limit ≤ inputs_total := by
        rcases hcase with hover | hreach
        · exfalso
          apply hb
          rw [txouts_total, mul_comm]
          have hover' : (limit : Int) * (max_outputs : Int) + (fee : Int)
              < (inputs_total : Int) := by exact_mod_cast hover
          linarith
        · omega
      have hsub : txouts_total inputs_total fee
          = ((inputs_total - fee : Nat) : Int) := by
        rw [txouts_total]
        omega
      rw [hsub, ← Int.ofNat_fdiv]
      have : 1 ≤ (inputs_total - fee) / limit :=
        (Nat.one_le_div_iff (by omega)).mpr (by omega)
      exact_mod_cast this
  have hguard : txouts_total inputs_total fee > (max_outputs : Int) * (limit : Int)
      ∨ (limit : Int) ≠ 0 := by
    by_cases hb : txouts_total inputs_total fee > (max_outputs : Int) * (limit : Int)
    · exact Or.inl hb
    · right
      intro hl0
      rw [txouts_cnt, if_neg hb, hl0, Int.fdiv_zero] at hcnt
      omega
  have hassert : txouts_total inputs_total fee
      = (((List.range (txouts_cnt inputs_total fee max_outputs limit).toNat).map
          (fun i => TxOut.payto key.address
            (if i = 0
             then txout_amount inputs_total fee max_outputs limit
                + rounded_amount inputs_total fee max_outputs limit
             else txout_amount inputs_total fee max_outputs limit))).map
          coinValue).sum := by
    rw [List.map_map]
    have hcomp : (coinValue ∘ fun i : Nat => TxOut.payto key.address
        (if i = 0
         then txout_amount inputs_total fee max_outputs limit
            + rounded_amount inputs_total fee max_outputs limit
         else txout_amount inputs_total fee max_outputs limit))
        = fun i : Nat => if i = 0
          then txout_amount inputs_total fee max_outputs limit
            + rounded_amount inputs_total fee max_outputs limit
          else txout_amount inputs_total fee max_outputs limit := by
      funext i
      by_cases hi : i = 0 <;> simp [hi, coinValue]
    rw [hcomp, sum_range_if
      (txout_amount inputs_total fee max_outputs limit)
      (rounded_amount inputs_total fee max_outputs limit)
      (txouts_cnt inputs_total fee max_outputs limit).toNat (by omega)]
    have hcast : ((txouts_cnt inputs_total fee max_outputs limit).toNat : Int)
        = txouts_cnt inputs_total fee max_outputs limit :=
      Int.toNat_of_nonneg (by omega)
    rw [hcast, rounded_amount]
    ring
  refine ⟨(List.range (txouts_cnt inputs_total fee max_outputs limit).toNat).map
      (fun i => TxOut.payto key.address
        (if i = 0
         then txout_amount inputs_total fee max_outputs limit
            + rounded_amount inputs_total fee max_outputs limit
         else txout_amount inputs_total fee max_outputs limit)), ?_, hcnt, ?_⟩
  · simp only [_outputs]
    rw [if_pos hguard, if_neg (by omega), if_pos hassert]
  · rw [← hassert, txouts_total]

/-- C10 (amended): under `split_utxos`'s preconditions — a non-trivial
threshold `1 ≤ fee + 2 * limit`, a positive `max_outputs`, and a working
set passing `_enough_to_split` after `_filter_dust` — the total gathered
by `_take_txins` satisfies `inputs_total - fee ≥ limit`, `txouts_cnt` is
at least 1 (so no division by zero occurs), and `_outputs` succeeds with
outputs summing exactly to `inputs_total - fee`.  The unamended claim,
without the two added hypotheses, is false: `max_outputs = 0` (or
`fee = limit = 0` with no spendables) reaches `ZeroDivisionError`. -/
theorem outputs_divisions_safe (sp : List Spendable) (fee limit max_outputs : Nat)
    (testnet : Bool) (key : Key) (hmo : 1 ≤ max_outputs)
    (hpos : 1 ≤ fee + 2 * limit)
    (henough : _enough_to_split (_filter_dust sp fee limit) fee limit = true) :
    fee + limit
      ≤ (_take_txins (_filter_dust sp fee limit) limit max_outputs fee).2.1
    ∧ ∃ txouts,
        _outputs testnet
          (_take_txins (_filter_dust sp fee limit) limit max_outputs fee).2.1
          fee max_outputs limit key = .ok txouts
      ∧ 1 ≤ txouts_cnt
          (_take_txins (_filter_dust sp fee limit) limit max_outputs fee).2.1
          fee max_outputs limit
      ∧ (txouts.map coinValue).sum
          = (((_take_txins (_filter_dust sp fee limit) limit max_outputs
                fee).2.1 : Nat) : Int) - (fee : Int) := by
  set F := _filter_dust sp fee limit with hF
  have htk : (_take_txins F limit max_outputs fee).2.1
      = (takeTxinsGo (limit * max_outputs + fee) F.reverse []).2.1 := by
    simp [_take_txins]
  set r := takeTxinsGo (limit * max_outputs + fee) F.reverse [] with hr
  obtain ⟨h1, h2, h3, hext⟩ := takeTxinsGo_spec (limit * max_outputs + fee) F.reverse []
  rw [← hr] at h1 h2 h3 hext
  have hen : fee + limit * 2 ≤ sumCoins F := by
    have h := henough
    rw [_enough_to_split] at h
    exact of_decide_eq_true h
  have hnil : sumCoins ([] : List Spendable) = 0 := rfl
  have hcons : sumCoins r.1 + sumCoins r.2.2 = sumCoins F := by
    have h := h3
    rw [sumCoins_reverse, hnil] at h
    omega
  have hne : r.1 ≠ [] := by
    intro h0
    rw [h0, hnil] at h1
    rcases h2 with hgt | hrest
    · omega
    · rw [h0, hrest, hnil] at hcons
      omega
  obtain ⟨s0, hs0⟩ := List.exists_mem_of_ne_nil r.1 hne
  obtain ⟨ext, hexteq, hextmem⟩ := hext
  have hs0F : s0 ∈ F := by
    have hs0e : s0 ∈ ext := by
      rw [hexteq] at hs0
      simpa using hs0
    exact List.mem_reverse.mp (hextmem s0 hs0e)
  obtain ⟨hd1, hd2, -⟩ := filter_dust_mem sp fee limit s0 (by rw [← hF]; exact hs0F)
  have hmem := mem_le_sumCoins r.1 s0 hs0
  have htot1 : fee + 1 ≤ r.2.1 := by
    rw [h1]
    omega
  have hflim : fee + limit ≤ r.2.1 := by
    rcases h2 with hgt | hrest
    · have hlm : limit ≤ limit * max_outputs := by
        calc limit = limit * 1 := (Nat.mul_one limit).symm
        _ ≤ limit * max_outputs := Nat.mul_le_mul_left limit hmo
      omega
    · rw [hrest, hnil] at hcons
      rw [h1]
      omega
  have hcase : r.2.1 > limit * max_outputs + fee ∨ fee + 2 * limit ≤ r.2.1 := by
    rcases h2 with hgt | hrest
    · exact Or.inl hgt
    · right
      rw [hrest, hnil] at hcons
      rw [h1]
      omega
  obtain ⟨txouts, hok, hc1, hsum⟩ :=
    outputs_ok_of_ge testnet r.2.1 fee max_outputs limit key hmo htot1 hcase
  rw [htk]
  exact ⟨hflim, txouts, hok, hc1, hsum⟩

/-- Witness for C10 at a concrete input: one 100-satoshi spendable,
`fee = 10`, `limit = 20`, `max_outputs = 3`. -/
theorem outputs_divisions_safe_witness :
    10 + 20 ≤ (_take_txins (_filter_dust [⟨1, 0, 100⟩] 10 20) 20 3 10).2.1
    ∧ ∃ txouts,
        _outputs false (_take_txins (_filter_dust [⟨1, 0, 100⟩] 10 20) 20 3 10).2.1
          10 3 20 ⟨1, [7]⟩ = .ok txouts
      ∧ 1 ≤ txouts_cnt (_take_txins (_filter_dust [⟨1, 0, 100⟩] 10 20) 20 3 10).2.1
          10 3 20
      ∧ (txouts.map coinValue).sum
          = (((_take_txins (_filter_dust [⟨1, 0, 100⟩] 10 20) 20 3 10).2.1
              : Nat) : Int) - (10 : Int) :=
  outputs_divisions_safe [⟨1, 0, 100⟩] 10 20 3 false ⟨1, [7]⟩ (by decide)
    (by decide) (by decide)

/-- C10 counterexample to the unamended claim: with `max_outputs = 0`
(`fee = 0`, `limit = 5`, one 11-satoshi spendable) every stated
precondition of the claim holds — the working set passes
`_enough_to_split` and the gathered total satisfies
`inputs_total - fee ≥ limit` — yet `_outputs` reaches the division
`txouts_total // txouts_cnt` with `txouts_cnt = 0` and raises
`ZeroDivisionError`. -/
theorem outputs_division_by_zero_counterexample :
    _enough_to_split (_filter_dust [⟨1, 0, 11⟩] 0 5) 0 5 = true
    ∧ (_take_txins (_filter_dust [⟨1, 0, 11⟩] 0 5) 5 0 0).2.1 = 11
    ∧ (11 : Int) - (0 : Int) ≥ (5 : Int)
    ∧ _outputs false 11 0 0 5 ⟨1, [7]⟩ = .error .zeroDivisionError := by
  decide

/-- The greedy loop of `find_txins` consumes a prefix of the working
list: it stops at the first non-trivial prefix whose running total
reaches `amount`, or consumes everything. -/
theorem findTxinsGo_prefix (amount : Int) :
    ∀ (l : List Spendable) (txins : List TxIn) (total : Nat),
      ∃ k, k ≤ l.length
        ∧ (findTxinsGo amount l txins total).1
            = txins ++ (l.take k).map (fun s => ⟨s.tx_hash, s.tx_out_index⟩)
        ∧ (findTxinsGo amount l txins total).2 = total + sumCoins (l.take k)
        ∧ (amount ≤ ((total + sumCoins (l.take k) : Nat) : Int) ∨ k = l.length)
        ∧ ∀ j, 1 ≤ j → j < k →
            ((total + sumCoins (l.take j) : Nat) : Int) < amount := by
  intro l
  induction l with
  | nil =>
    intro txins total
    exact ⟨0, by simp, by simp [findTxinsGo], by simp [findTxinsGo, sumCoins],
      Or.inr rfl, by omega⟩
  | cons s rest ih =>
    intro txins total
    by_cases hstop : amount ≤ ((total + s.coin_value : Nat) : Int)
    · have hstep : findTxinsGo amount (s :: rest) txins total
          = (txins ++ [⟨s.tx_hash, s.tx_out_index⟩], total + s.coin_value) := by
        simp only [findTxinsGo]
        rw [if_pos hstop]
      refine ⟨1, by simp, ?_, ?_, Or.inl ?_, by omega⟩
      · rw [hstep, List.take_succ_cons]
        simp
      · rw [hstep, List.take_succ_cons]
        simp [sumCoins]
      · rw [List.take_succ_cons]
        simp only [sumCoins, List.map_cons, List.sum_cons, List.take_zero,
          List.map_nil, List.sum_nil]
        omega
    · have hstep : findTxinsGo amount (s :: rest) txins total
          = findTxinsGo amount rest (txins ++ [⟨s.tx_hash, s.tx_out_index⟩])
              (total + s.coin_value) := by
        simp only [findTxinsGo]
        rw [if_neg hstop]
      obtain ⟨k, hk, h1, h2, hexit, hmin⟩ :=
        ih (txins ++ [⟨s.tx_hash, s.tx_out_index⟩]) (total + s.coin_value)
      refine ⟨k + 1, by simpa using Nat.succ_le_succ hk, ?_, ?_, ?_, ?_⟩
      · rw [hstep, h1, List.take_succ_cons]
        simp
      · rw [hstep, h2, List.take_succ_cons]
        simp only [sumCoins, List.map_cons, List.sum_cons]
        omega
      · rcases hexit with hle | hlen
        · left
          rw [List.take_succ_cons]
          simp only [sumCoins, List.map_cons, List.sum_cons] at hle ⊢
          omega
        · right
          simp [hlen]
      · intro j hj1 hjk
        obtain ⟨j', rfl⟩ : ∃ j', j = j' + 1 := ⟨j - 1, by omega⟩
        rw [List.take_succ_cons]
        simp only [sumCoins, List.map_cons, List.sum_cons]
        rcases Nat.eq_zero_or_pos j' with rfl | hj'
        · simp only [List.take_zero, List.map_nil, List.sum_nil]
          omega
        · have hm := hmin j' hj' (by omega)
          simp only [sumCoins] at hm
          omega

/-- C6: `find_txins` works over the spendables sorted descending by coin
value (a permutation of the input), greedily taking a prefix: it stops at
the first prefix whose total reaches the required amount, or exhausts the
set, returning the accumulated inputs and total either way; `add_inputs`
raises `InsufficientFunds(required, total)` exactly when the accumulated
total falls short of required = outputs + fee; and on spendables with
values 3000, 1000, 5000 and required amount 4000 it selects the single
5000-satoshi input with total 5000. -/
theorem find_txins_greedy_spec (sp : List Spendable) (amount : Int) (tx : Tx)
    (change_address : List Nat) (fee : Nat) :
    (retrieve_utxos sp).Pairwise (fun a b => b.coin_value ≤ a.coin_value)
    ∧ (retrieve_utxos sp).Perm sp
    ∧ (∃ k, k ≤ (retrieve_utxos sp).length
        ∧ (find_txins sp amount).1
            = ((retrieve_utxos sp).take k).map (fun s => ⟨s.tx_hash, s.tx_out_index⟩)
        ∧ (find_txins sp amount).2 = sumCoins ((retrieve_utxos sp).take k)
        ∧ (amount ≤ (((find_txins sp amount).2 : Nat) : Int)
            ∨ k = (retrieve_utxos sp).length)
        ∧ ∀ j, 1 ≤ j → j < k →
            ((sumCoins ((retrieve_utxos sp).take j) : Nat) : Int) < amount)
    ∧ (add_inputs sp tx change_address fee
          = .error (.insufficientFunds ((tx.txs_out.map coinValue).sum + (fee : Int))
              ((find_txins sp ((tx.txs_out.map coinValue).sum + (fee : Int))).2))
        ↔ (((find_txins sp ((tx.txs_out.map coinValue).sum + (fee : Int))).2 : Nat) : Int)
          < (tx.txs_out.map coinValue).sum + (fee : Int))
    ∧ find_txins [⟨1, 0, 3000⟩, ⟨2, 0, 1000⟩, ⟨3, 0, 5000⟩] 4000
        = ([⟨3, 0⟩], 5000) := by
  refine ⟨?_, sortB_perm _ sp, ?_, ?_, by decide⟩
  · have h := sortB_pairwise
      (fun a b : Spendable => decide (b.coin_value ≤ a.coin_value))
      (by intro a b c hab hbc; simp at hab hbc ⊢; omega)
      (by intro a b; simp; omega) sp
    rw [retrieve_utxos]
    exact h.imp (by intro a b hab; simpa using hab)
  · obtain ⟨k, hk, h1, h2, hexit, hmin⟩ :=
      findTxinsGo_prefix amount (retrieve_utxos sp) [] 0
    refine ⟨k, hk, ?_, ?_, ?_, ?_⟩
    · rw [find_txins, h1]
      simp
    · rw [find_txins, h2]
      omega
    · rcases hexit with hle | hlen
      · left
        rw [find_txins, h2]
        simpa using hle
      · exact Or.inr hlen
    · intro j hj1 hjk
      have hm := hmin j hj1 hjk
      simpa using hm
  · simp only [add_inputs]
    set req : Int := (tx.txs_out.map coinValue).sum + (fee : Int) with hreq
    by_cases hlt : ((find_txins sp req).2 : Int) < req
    · simp [hlt]
    · simp [hlt]

/-- `_outputs` can raise only `ZeroDivisionError` or `AssertionError`,
never the fuel marker. -/
theorem outputs_no_recursion (testnet : Bool) (t fee mo limit : Nat) (key : Key) :
    _outputs testnet t fee mo limit key ≠ .error .recursionLimit := by
  simp only [_outputs]
  split
  · split
    · simp
    · split
      · simp
      · simp
  · simp

/-- Any fuel above the spendable count is enough: the recursion of
`split_utxos` never exhausts its fuel, because each pass consumes at
least one spendable from a non-empty working set. -/
theorem split_utxos_go_ne (testnet : Bool) (key : Key) (limit fee max_outputs : Nat)
    (hpos : 1 ≤ fee + 2 * limit) :
    ∀ fuel sp, sp.length < fuel →
      split_utxos_go testnet key limit fee max_outputs fuel sp
        ≠ .error .recursionLimit := by
  intro fuel
  induction fuel with
  | zero => intro sp hlen; omega
  | succ n ih =>
    intro sp hlen h
    simp only [split_utxos_go] at h
    by_cases hen : _enough_to_split (_filter_dust sp fee limit) fee limit = true
    · rw [if_pos hen] at h
      have hne : _filter_dust sp fee limit ≠ [] := by
        intro h0
        have he := hen
        rw [_enough_to_split, h0] at he
        have := of_decide_eq_true he
        have hz : sumCoins ([] : List Spendable) = 0 := rfl
        omega
      have hshrink := take_txins_shrinks (_filter_dust sp fee limit)
        limit max_outputs fee hne
      have hfl := filter_dust_length sp fee limit
      cases ho : _outputs testnet
          (_take_txins (_filter_dust sp fee limit) limit max_outputs fee).2.1
          fee max_outputs limit key with
      | error e =>
        rw [ho] at h
        simp only [] at h
        have he : e = PyErr.recursionLimit := by simpa using h
        exact outputs_no_recursion testnet
          (_take_txins (_filter_dust sp fee limit) limit max_outputs fee).2.1
          fee max_outputs limit key (by rw [ho, he])
      | ok touts =>
        rw [ho] at h
        cases hrec : split_utxos_go testnet key limit fee max_outputs n
            (_take_txins (_filter_dust sp fee limit) limit max_outputs fee).2.2 with
        | error e =>
          rw [hrec] at h
          simp only [] at h
          exact ih (_take_txins (_filter_dust sp fee limit) limit max_outputs fee).2.2
            (by omega) (hrec.trans h)
        | ok txs =>
          rw [hrec] at h
          simp at h
    · rw [if_neg hen] at h
      simp at h

/-- C9 (amended): with a non-trivial threshold `1 ≤ fee + 2 * limit`,
`split_utxos` terminates for every finite spendable list: a working set
passing `_enough_to_split` is non-empty, `_take_txins` then removes at
least one spendable, the recursion never exhausts fuel proportional to
the list length, and when `_enough_to_split` fails the empty transaction
list is returned.  The unamended claim is false: with `fee = limit = 0`
the empty working set passes `_enough_to_split`, nothing is removed, and
the call ends in `ZeroDivisionError` instead of the empty list. -/
theorem split_utxos_terminates (testnet : Bool) (key : Key)
    (sp : List Spendable) (limit fee max_outputs : Nat)
    (hpos : 1 ≤ fee + 2 * limit) :
    (_enough_to_split (_filter_dust sp fee limit) fee limit = true →
      _filter_dust sp fee limit ≠ [])
    ∧ (_filter_dust sp fee limit ≠ [] →
        (_take_txins (_filter_dust sp fee limit) limit max_outputs fee).2.2.length
          < (_filter_dust sp fee limit).length)
    ∧ split_utxos testnet key sp limit fee max_outputs ≠ .error .recursionLimit
    ∧ (_enough_to_split (_filter_dust sp fee limit) fee limit = false →
        split_utxos testnet key sp limit fee max_outputs = .ok []) := by
  refine ⟨?_, ?_, ?_, ?_⟩
  · intro hen h0
    have he := hen
    rw [_enough_to_split, h0] at he
    have := of_decide_eq_true he
    have hz : sumCoins ([] : List Spendable) = 0 := rfl
    omega
  · intro hne
    exact take_txins_shrinks (_filter_dust sp fee limit) limit max_outputs fee hne
  · rw [split_utxos]
    exact split_utxos_go_ne testnet key limit fee max_outputs hpos
      (sp.length + 1) sp (by omega)
  · intro hfail
    rw [split_utxos]
    simp only [split_utxos_go]
    rw [if_neg (by simp [hfail])]

/-- Witness for C9 at a concrete input: two spendables of 100 and 90
satoshis, `fee = 10`, `limit = 20`, `max_outputs = 3`. -/
theorem split_utxos_terminates_witness :
    (_enough_to_split (_filter_dust [⟨1, 0, 100⟩, ⟨2, 0, 90⟩] 10 20) 10 20 = true →
      _filter_dust [⟨1, 0, 100⟩, ⟨2, 0, 90⟩] 10 20 ≠ [])
    ∧ (_filter_dust [⟨1, 0, 100⟩, ⟨2, 0, 90⟩] 10 20 ≠ [] →
        (_take_txins (_filter_dust [⟨1, 0, 100⟩, ⟨2, 0, 90⟩] 10 20) 20 3 10).2.2.length
          < (_filter_dust [⟨1, 0, 100⟩, ⟨2, 0, 90⟩] 10 20).length)
    ∧ split_utxos false ⟨1, [7]⟩ [⟨1, 0, 100⟩, ⟨2, 0, 90⟩] 20 10 3
        ≠ .error .recursionLimit
    ∧ (_enough_to_split (_filter_dust [⟨1, 0, 100⟩, ⟨2, 0, 90⟩] 10 20) 10 20 = false →
        split_utxos false ⟨1, [7]⟩ [⟨1, 0, 100⟩, ⟨2, 0, 90⟩] 20 10 3 = .ok []) :=
  split_utxos_terminates false ⟨1, [7]⟩ [⟨1, 0, 100⟩, ⟨2, 0, 90⟩] 20 10 3 (by decide)

/-- C9 counterexample to the unamended claim: with `fee = limit = 0` the
empty working set passes `_enough_to_split` while being empty, and
`split_utxos` ends in `ZeroDivisionError` rather than returning the
empty transaction list. -/
theorem split_utxos_degenerate_counterexample :
    _enough_to_split (_filter_dust [] 0 0) 0 0 = true
    ∧ _filter_dust [] 0 0 = []
    ∧ split_utxos false ⟨1, [7]⟩ [] 0 0 5 = .error .zeroDivisionError := by
  decide

/-- C7 (amended): when the decoded blob is long enough but its tail fails
decompression, `get_broadcast_message` does **not** map the failure to
`NoBroadcastMessage`: the decompression error propagates unchanged,
because `zlib.decompress` is called outside any `try`/`except`.  The
unamended claim — that decompression failure yields
`NoBroadcastMessage` — is refuted by the counterexample below. -/
theorem broadcast_decompress_error_propagates (ext : Ext) (testnet : Bool) (tx : Tx)
    (data : List Nat) (e : PyErr)
    (hdec : get_data_blob tx = .ok data)
    (hlen : 98 ≤ data.length)
    (hz : ext.decompress (((data.drop 65).drop 13).drop 20) = .error e) :
    get_broadcast_message ext testnet tx = .error e := by
  simp only [get_broadcast_message, hdec]
  rw [if_neg (by omega)]
  rw [hz]

/-- Witness for C7 at a concrete input: the 98-byte zero blob of `txZ`
under the always-failing decompressor `extZ`. -/
theorem broadcast_decompress_error_propagates_witness :
    get_data_blob txZ = .ok (List.replicate 98 0)
    ∧ 98 ≤ (List.replicate 98 0).length
    ∧ extZ.decompress ((((List.replicate 98 0).drop 65).drop 13).drop 20)
        = .error .zlibError
    ∧ get_broadcast_message extZ false txZ = .error .zlibError :=
  ⟨by decide, by decide, by decide,
    broadcast_decompress_error_propagates extZ false txZ (List.replicate 98 0)
      .zlibError (by decide) (by decide) (by decide)⟩

/-- C7 counterexample to the unamended claim: a frame whose tail fails
decompression makes `get_broadcast_message` raise the decompression
error itself, not `NoBroadcastMessage`. -/
theorem broadcast_zlib_counterexample :
    get_broadcast_message extZ false txZ = .error .zlibError
    ∧ get_broadcast_message extZ false txZ ≠ .error .noBroadcastMessage := by
  decide

/-- The candidate loop returns the first candidate that self-verifies:
whatever precedes it verified to `False`, and nothing after it was
tried. -/
theorem tryCandidates_first (ext : Ext) (testnet : Bool) (address data : List Nat) :
    ∀ (cands : List (List Nat)) (sig : List Nat),
      tryCandidates ext testnet address data cands = .ok sig →
      ∃ pre post, cands = pre ++ sig :: post
        ∧ (∀ c ∈ pre, verify_signature ext testnet address c data = .ok false)
        ∧ verify_signature ext testnet address sig data = .ok true := by
  intro cands
  induction cands with
  | nil =>
    intro sig h
    rw [tryCandidates] at h
    exact absurd h (by simp)
  | cons c rest ih =>
    intro sig h
    rw [tryCandidates] at h
    cases hv : verify_signature ext testnet address c data with
    | error e =>
      rw [hv] at h
      simp only [] at h
      exact absurd h (by simp)
    | ok b =>
      cases b with
      | false =>
        rw [hv] at h
        simp only [] at h
        obtain ⟨pre, post, heq, hpre, hsig⟩ := ih sig h
        refine ⟨c :: pre, post, by rw [heq]; rfl, ?_, hsig⟩
        intro x hx
        rcases List.mem_cons.mp hx with rfl | hx'
        · exact hv
        · exact hpre x hx'
      | true =>
        rw [hv] at h
        simp only [] at h
        obtain rfl : c = sig := Except.ok.inj h
        exact ⟨[], rest, rfl, by simp, hv⟩

/-- C2: a successful `sign_data` returns a 65-byte signature — one header
byte, then the 64 bytes of the deterministic `(r, s)` — and it is the
first of the eight header candidates (recovery id 0..3 outer loop,
compressed before uncompressed inner loop, as the enumeration conjunct
makes explicit) whose self-verification against the key's own address
succeeds; every earlier candidate verified to `False`, and the returned
signature verifies to `True` for the signer's address. -/
theorem sign_data_first_success (ext : Ext) (testnet : Bool) (data : List Nat)
    (key : Key) (sig : List Nat)
    (h : sign_data ext testnet data key = .ok sig) :
    sig.length = 65
    ∧ (∀ sd : List Nat,
        ((List.range 4).map (fun i =>
          [_add_recovery_params i true sd, _add_recovery_params i false sd])).flatten
          = [_add_recovery_params 0 true sd, _add_recovery_params 0 false sd,
             _add_recovery_params 1 true sd, _add_recovery_params 1 false sd,
             _add_recovery_params 2 true sd, _add_recovery_params 2 false sd,
             _add_recovery_params 3 true sd, _add_recovery_params 3 false sd])
    ∧ ∃ pre post,
        signCandidates ext data key = pre ++ sig :: post
        ∧ (∀ c ∈ pre, verify_signature ext testnet key.address c data = .ok false)
        ∧ verify_signature ext testnet key.address sig data = .ok true := by
  have hrw : sign_data ext testnet data key
      = tryCandidates ext testnet key.address data (signCandidates ext data key) := rfl
  rw [hrw] at h
  obtain ⟨pre, post, heq, hpre, hsig⟩ :=
    tryCandidates_first ext testnet key.address data (signCandidates ext data key) sig h
  refine ⟨?_, fun sd => rfl, pre, post, heq, hpre, hsig⟩
  have hmem : sig ∈ signCandidates ext data key := by
    rw [heq]
    exact List.mem_append_right pre (List.mem_cons_self sig post)
  rw [signCandidates] at hmem
  simp only [List.mem_flatten, List.mem_map] at hmem
  obtain ⟨l, ⟨i, hi, hil⟩, hsl⟩ := hmem
  subst hil
  simp only [List.mem_cons, List.mem_singleton] at hsl
  rcases hsl with rfl | rfl | hfalse
  · simp [_add_recovery_params, sigencode_string, num_to_bytes_length]
  · simp [_add_recovery_params, sigencode_string, num_to_bytes_length]
  · exact absurd hfalse (by simp)

/-! ## Concrete evaluation of the signature engine

The verification of the concrete signature is staged: each 256-bit
scalar multiplication is evaluated in a lemma of its own, and the
pipeline lemmas chain them together by rewriting, so no single kernel
evaluation carries more than one full multiplication. -/

theorem ok_bind (a : α) (f : α → Except ε β) : (Except.ok a >>= f) = f a := rfl

theorem hparseW : _parse_signature sigW = .ok (sdW, rW, 2, 0, true) := by decide

set_option maxRecDepth 40000 in
set_option maxHeartbeats 4000000 in
theorem recoverW : _recover_public_key rW 2 0 eW = .ok (.pt qxW qyW) := by decide

set_option maxRecDepth 40000 in
set_option maxHeartbeats 16000000 in
theorem nQW : pointMulOrd secp_p secp_a none (.pt qxW qyW) secp_n
    = .ok .infinity := by decide

set_option maxRecDepth 40000 in
set_option maxHeartbeats 4000000 in
theorem inv2W : inverse_mod ((2 : Nat) : Int) secp_n = .ok rW := by decide

set_option maxRecDepth 40000 in
set_option maxHeartbeats 16000000 in
theorem u1GW : pointMulOrd secp_p secp_a (some secp_n) secp_G u1W
    = .ok (.pt p1xW p1yW) := by decide

set_option maxRecDepth 40000 in
set_option maxHeartbeats 16000000 in
theorem u2QW : pointMulOrd secp_p secp_a none (.pt qxW qyW) u2W
    = .ok (.pt p2xW p2yW) := by decide

set_option maxRecDepth 40000 in
set_option maxHeartbeats 4000000 in
theorem sumW : pointAdd secp_p secp_a (.pt p1xW p1yW) (.pt p2xW p2yW)
    = .ok (.pt rW sumYW) := by decide

theorem publicKeyChecksW : publicKeyChecks (.pt qxW qyW) = .ok (qxW, qyW) := by
  have h1 : publicKeyChecks (.pt qxW qyW)
      = (pointMulOrd secp_p secp_a none (.pt qxW qyW) secp_n >>= fun nQ =>
          if nQ ≠ ECPoint.infinity then .error .runtimeError
          else if qxW ≥ secp_n ∨ qyW ≥ secp_n then .error .runtimeError
          else .ok (qxW, qyW)) := rfl
  rw [h1, nQW, ok_bind]
  decide

theorem pubkeyVerifiesW : pubkey_verifies qxW qyW eW rW 2 = .ok true := by
  have h1 : pubkey_verifies qxW qyW eW rW 2
      = (inverse_mod ((2 : Nat) : Int) secp_n >>= fun c =>
          pointMulOrd secp_p secp_a (some secp_n) secp_G (eW * c % secp_n) >>= fun p1 =>
          pointMulOrd secp_p secp_a none (.pt qxW qyW) (rW * c % secp_n) >>= fun p2 =>
          pointAdd secp_p secp_a p1 p2 >>= fun xy =>
          match xy with
          | .infinity => .error .typeError
          | .pt vx _ => .ok (decide (vx % secp_n = rW))) := by
    rw [pubkey_verifies, if_neg (by decide), if_neg (by decide)]
  rw [h1, inv2W, ok_bind]
  show (pointMulOrd secp_p secp_a (some secp_n) secp_G (eW * rW % secp_n) >>= fun p1 =>
      pointMulOrd secp_p secp_a none (.pt qxW qyW) (rW * rW % secp_n) >>= fun p2 =>
      pointAdd secp_p secp_a p1 p2 >>= fun xy =>
      match xy with
      | .infinity => .error .typeError
      | .pt vx _ => .ok (decide (vx % secp_n = rW))) = .ok true
  rw [show eW * rW % secp_n = u1W from by decide,
      show rW * rW % secp_n = u2W from by decide, u1GW, ok_bind]
  show (pointMulOrd secp_p secp_a none (.pt qxW qyW) u2W >>= fun p2 =>
      pointAdd secp_p secp_a (.pt p1xW p1yW) p2 >>= fun xy =>
      match xy with
      | .infinity => .error .typeError
      | .pt vx _ => .ok (decide (vx % secp_n = rW))) = .ok true
  rw [u2QW, ok_bind]
  show (pointAdd secp_p secp_a (.pt p1xW p1yW) (.pt p2xW p2yW) >>= fun xy =>
      match xy with
      | .infinity => .error .typeError
      | .pt vx _ => .ok (decide (vx % secp_n = rW))) = .ok true
  rw [sumW, ok_bind]
  decide

theorem verifyDigestW : verify_digest qxW qyW sdW digestW = .ok () := by
  have h1 : verify_digest qxW qyW sdW digestW
      = (sigdecode_string sdW >>= fun rs =>
          pubkey_verifies qxW qyW (bytestoint digestW) rs.1 rs.2 >>= fun ok =>
          if ok then .ok () else .error .badSignatureError) := by
    rw [verify_digest, if_neg (by decide)]
  rw [h1, show sigdecode_string sdW = Except.ok (rW, 2) from by decide, ok_bind]
  show (pubkey_verifies qxW qyW (bytestoint digestW) rW 2 >>= fun ok =>
      if ok then .ok () else .error .badSignatureError) = .ok ()
  rw [show bytestoint digestW = eW from by decide, pubkeyVerifiesW, ok_bind]
  rfl

theorem verifySignatureRawW :
    verifySignatureRaw extW false [0, 150, 141, 1] sigW [] = .ok true := by
  have h1 : verifySignatureRaw extW false [0, 150, 141, 1] sigW []
      = (_parse_signature sigW >>= fun parsed =>
          _recover_public_key parsed.2.1 parsed.2.2.1 parsed.2.2.2.1
            (bytestoint (_bitcoin_message_hash extW [])) >>= fun Q =>
          publicKeyChecks Q >>= fun qc =>
          verify_digest qc.1 qc.2 parsed.1 (_bitcoin_message_hash extW []) >>= fun x =>
          .ok (decide ([0, 150, 141, 1] = _public_pair_to_address extW false qc.1 qc.2
            parsed.2.2.2.2))) := rfl
  rw [h1, hparseW, ok_bind]
  show (_recover_public_key rW 2 0 (bytestoint (_bitcoin_message_hash extW [])) >>= fun Q =>
      publicKeyChecks Q >>= fun qc =>
      verify_digest qc.1 qc.2 sdW (_bitcoin_message_hash extW []) >>= fun x =>
      Except.ok (decide ([0, 150, 141, 1]
        = _public_pair_to_address extW false qc.1 qc.2 true))) = Except.ok true
  rw [show _bitcoin_message_hash extW [] = digestW from rfl,
      show bytestoint digestW = eW from by decide, recoverW, ok_bind]
  show (publicKeyChecks (.pt qxW qyW) >>= fun qc =>
      verify_digest qc.1 qc.2 sdW digestW >>= fun x =>
      Except.ok (decide ([0, 150, 141, 1]
        = _public_pair_to_address extW false qc.1 qc.2 true))) = Except.ok true
  rw [publicKeyChecksW, ok_bind]
  show (verify_digest qxW qyW sdW digestW >>= fun x =>
      Except.ok (decide ([0, 150, 141, 1]
        = _public_pair_to_address extW false qxW qyW true))) = Except.ok true
  rw [verifyDigestW, ok_bind]
  decide

theorem verifyW : verify_signature extW false [0, 150, 141, 1] sigW [] = .ok true := by
  rw [verify_signature, verifySignatureRawW]

/-- With the concrete collaborators, the very first candidate (recovery
id 0, compressed) self-verifies, so `sign_data` returns it. -/
theorem signW_ok : sign_data extW false [] keyW = .ok sigW := by
  have h0 : sign_data extW false [] keyW
      = tryCandidates extW false keyW.address [] (signCandidates extW [] keyW) := rfl
  have h1 : signCandidates extW [] keyW
      = sigW :: [_add_recovery_params 0 false (sigencode_string rW 2),
          _add_recovery_params 1 true (sigencode_string rW 2),
          _add_recovery_params 1 false (sigencode_string rW 2),
          _add_recovery_params 2 true (sigencode_string rW 2),
          _add_recovery_params 2 false (sigencode_string rW 2),
          _add_recovery_params 3 true (sigencode_string rW 2),
          _add_recovery_params 3 false (sigencode_string rW 2)] := by decide
  rw [h0, h1, tryCandidates, show keyW.address = [0, 150, 141, 1] from rfl, verifyW]

/-- Witness for C2 at a concrete input: with the collaborators `extW` and
key `keyW`, `sign_data` succeeds on the empty message with the 65-byte
`sigW`, which heads the candidate list and self-verifies. -/
theorem sign_data_first_success_witness :
    sign_data extW false [] keyW = .ok sigW
    ∧ sigW.length = 65
    ∧ ∃ pre post,
        signCandidates extW [] keyW = pre ++ sigW :: post
        ∧ (∀ c ∈ pre, verify_signature extW false keyW.address c [] = .ok false)
        ∧ verify_signature extW false keyW.address sigW [] = .ok true :=
  ⟨signW_ok, (sign_data_first_success extW false [] keyW sigW signW_ok).1,
    (sign_data_first_success extW false [] keyW sigW signW_ok).2.2⟩

set_option maxRecDepth 40000 in
set_option maxHeartbeats 16000000 in
/-- C3: refuted — `verify_signature` is **not** total.  Its `except`
clauses catch only `AssertionError` and `InvalidSignarureParameter`, but
`verify_digest` raises `BadSignatureError` when the raw re-validation
fails (here: a well-formed 65-byte signature with `s = 0`), and that
exception escapes to the caller instead of becoming `False`. -/
theorem verify_signature_not_total :
    verify_signature extW false [9] sigBad [] = .error .badSignatureError := by
  decide

end BtcTxStore
